import Mathlib

/-!
Verification of the conduit incremental-build cache core.

This file gives a shallow embedding, in Lean 4, of the cache layers of the
conduit code generator (content cache, parse cache, dependency graph,
generation cache, cache manager), of its route-tree builder and of its
source analyzer, and proves or refutes the specified properties about them.

Modelling conventions, used throughout:
  * Go maps are modelled as association lists (`List (k, v)`) with
    insert-or-replace, delete and lookup operations; the list order plays
    the role of one fixed map-iteration order.
  * Go slices are Lean lists.
  * Mutexes, logging and statistics counters are dropped: they do not
    affect the values the claims are about.
  * The file system is an explicit parameter (a function from paths to a
    stat result), and `time.Now()` is an explicit numeric parameter.
  * Recursive Go functions (depth-first traversals, Kahn's queue loop) are
    embedded with an explicit fuel argument that is provably large enough
    for the call used by the API entry point.
-/

universe u v

/-- Association-list lookup, mirroring a read from a Go map. -/
def lookupMap {κ : Type u} {α : Type v} [DecidableEq κ] : List (κ × α) → κ → Option α
  | [], _ => none
  | (k, v) :: rest, key => if key = k then some v else lookupMap rest key

/-- Association-list insert-or-replace, mirroring a write to a Go map. -/
def setMap {κ : Type u} {α : Type v} [DecidableEq κ] : List (κ × α) → κ → α → List (κ × α)
  | [], key, v => [(key, v)]
  | (k, w) :: rest, key, v =>
      if key = k then (key, v) :: rest else (k, w) :: setMap rest key v

/-- Association-list delete, mirroring a Go map delete. -/
def eraseKey {κ : Type u} {α : Type v} [DecidableEq κ] (m : List (κ × α)) (key : κ) :
    List (κ × α) :=
  m.filter (fun kv => !(decide (kv.1 = key)))

/-- Keys of an association list. -/
def mapKeys {κ : Type u} {α : Type v} (m : List (κ × α)) : List κ := m.map (·.1)

section MapLemmas

variable {κ : Type u} {α : Type v} [DecidableEq κ]

theorem lookupMap_setMap_self (m : List (κ × α)) (k : κ) (v : α) :
    lookupMap (setMap m k v) k = some v := by
  induction m with
  | nil => simp [setMap, lookupMap]
  | cons kv rest ih =>
      obtain ⟨k', w⟩ := kv
      by_cases h : k = k' <;> simp [setMap, lookupMap, h, ih]

theorem lookupMap_setMap_ne (m : List (κ × α)) (k k' : κ) (v : α) (h : k' ≠ k) :
    lookupMap (setMap m k v) k' = lookupMap m k' := by
  induction m with
  | nil => simp [setMap, lookupMap, h]
  | cons kv rest ih =>
      obtain ⟨k₀, w⟩ := kv
      by_cases h0 : k = k₀
      · subst h0
        simp [setMap, lookupMap, h]
      · by_cases h1 : k' = k₀ <;> simp [setMap, lookupMap, h0, h1, ih]

theorem lookupMap_eraseKey_self (m : List (κ × α)) (k : κ) :
    lookupMap (eraseKey m k) k = none := by
  induction m with
  | nil => simp [eraseKey, lookupMap]
  | cons kv rest ih =>
      obtain ⟨k₀, w⟩ := kv
      by_cases h : k₀ = k
      · simpa [eraseKey, h] using ih
      · have hk : k ≠ k₀ := fun hh => h hh.symm
        simpa [eraseKey, lookupMap, h, hk] using ih

theorem lookupMap_eraseKey_ne (m : List (κ × α)) (k k' : κ) (h : k' ≠ k) :
    lookupMap (eraseKey m k) k' = lookupMap m k' := by
  induction m with
  | nil => simp [eraseKey, lookupMap]
  | cons kv rest ih =>
      obtain ⟨k₀, w⟩ := kv
      simp only [eraseKey] at ih ⊢
      by_cases h0 : k₀ = k
      · subst h0
        simp [lookupMap, h, ih]
      · by_cases h1 : k' = k₀ <;> simp [lookupMap, h0, h1, ih]

theorem mapKeys_setMap (m : List (κ × α)) (k : κ) (v : α) :
    mapKeys (setMap m k v) = if k ∈ mapKeys m then mapKeys m else mapKeys m ++ [k] := by
  induction m with
  | nil => simp [setMap, mapKeys]
  | cons kv rest ih =>
      obtain ⟨k₀, w⟩ := kv
      by_cases h : k = k₀
      · simp [setMap, mapKeys, h]
      · have h' : ¬ k₀ = k := fun hh => h hh.symm
        by_cases hm : k ∈ mapKeys rest <;>
          simp only [mapKeys, List.map] at hm ih ⊢ <;>
          simp [setMap, h, h', hm, ih]

theorem lookupMap_isSome_iff_mem_keys (m : List (κ × α)) (k : κ) :
    (lookupMap m k).isSome = true ↔ k ∈ mapKeys m := by
  induction m with
  | nil => simp [lookupMap, mapKeys]
  | cons kv rest ih =>
      obtain ⟨k₀, w⟩ := kv
      by_cases h : k = k₀ <;> simp [lookupMap, mapKeys, h, ih]

theorem lookupMap_eq_none_iff_not_mem_keys (m : List (κ × α)) (k : κ) :
    lookupMap m k = none ↔ ¬ k ∈ mapKeys m := by
  rw [← lookupMap_isSome_iff_mem_keys]
  cases h : lookupMap m k <;> simp [h]

theorem mem_of_lookupMap_eq_some {m : List (κ × α)} {k : κ} {v : α}
    (h : lookupMap m k = some v) : (k, v) ∈ m := by
  induction m with
  | nil => simp [lookupMap] at h
  | cons kv rest ih =>
      obtain ⟨k₀, w⟩ := kv
      by_cases h0 : k = k₀
      · subst h0
        simp [lookupMap] at h
        simp [h]
      · simp [lookupMap, h0] at h
        exact List.mem_cons_of_mem _ (ih h)

theorem lookupMap_eq_some_of_mem {m : List (κ × α)} {k : κ} {v : α}
    (hnd : (mapKeys m).Nodup) (h : (k, v) ∈ m) : lookupMap m k = some v := by
  induction m with
  | nil => simp at h
  | cons kv rest ih =>
      obtain ⟨k₀, w⟩ := kv
      simp only [mapKeys, List.map, List.nodup_cons] at hnd
      rcases List.mem_cons.mp h with h1 | h1
      · have hk : k = k₀ := congrArg Prod.fst h1
        have hv : v = w := congrArg Prod.snd h1
        subst hk
        subst hv
        simp [lookupMap]
      · have hk : ¬ k = k₀ := by
          intro hkk
          subst hkk
          exact hnd.1 (List.mem_map_of_mem Prod.fst h1)
        simp only [lookupMap, hk, if_neg hk]
        exact ih hnd.2 h1

theorem nodupKeys_setMap (m : List (κ × α)) (k : κ) (v : α)
    (hnd : (mapKeys m).Nodup) : (mapKeys (setMap m k v)).Nodup := by
  rw [mapKeys_setMap]
  by_cases h : k ∈ mapKeys m
  · simpa [h] using hnd
  · rw [if_neg h]
    refine List.Nodup.append hnd (List.nodup_singleton k) ?_
    intro x hx hxk
    simp at hxk
    subst hxk
    exact h hx

theorem mapKeys_eraseKey_subset (m : List (κ × α)) (k k' : κ)
    (h : k' ∈ mapKeys (eraseKey m k)) : k' ∈ mapKeys m := by
  rcases (List.mem_map).mp h with ⟨kv', hkv', hfst⟩
  exact hfst ▸ List.mem_map_of_mem Prod.fst (List.mem_of_mem_filter hkv')

theorem nodupKeys_eraseKey (m : List (κ × α)) (k : κ)
    (hnd : (mapKeys m).Nodup) : (mapKeys (eraseKey m k)).Nodup := by
  induction m with
  | nil => simp [eraseKey, mapKeys]
  | cons kv rest ih =>
      obtain ⟨k₀, w⟩ := kv
      simp only [mapKeys, List.map, List.nodup_cons] at hnd
      by_cases h : k₀ = k
      · simpa [eraseKey, h] using ih hnd.2
      · have hmem : k₀ ∉ mapKeys (eraseKey rest k) :=
          fun hm => hnd.1 (mapKeys_eraseKey_subset rest k k₀ hm)
        have hrec := ih hnd.2
        simp only [eraseKey, List.filter, h, decide_eq_true_eq, Bool.not_eq_true] at hmem hrec ⊢
        simp only [mapKeys, List.map, List.nodup_cons]
        constructor
        · simpa [eraseKey, mapKeys] using hmem
        · simpa [eraseKey, mapKeys] using hrec

end MapLemmas

/-! ## Dependency graph (Layer 3, from core/cache/layers/generation_cache.go) -/

/-- Node kind, mirroring the Go NodeType enumeration. -/
inductive NodeType where
  | SourceFile
  | GeneratedFile
  | TemplateFile
  | ConfigFile
deriving DecidableEq, Repr

/-- Vertex of the dependency graph, mirroring models.DependencyNode. -/
structure DependencyNode where
  filePath : String
  nodeType : NodeType
  dependencies : List String
  dependents : List String
  contentHash : String
deriving DecidableEq, Repr

/-- The dependency graph: the Go map from file path to node, as an
association list. -/
abbrev Graph := List (String × DependencyNode)

/-- Fresh placeholder node, as created by the graph operations. -/
def newDepNode (p : String) : DependencyNode :=
  { filePath := p, nodeType := .SourceFile, dependencies := [], dependents := [],
    contentHash := "" }

/-- Mirrors the Go helper removeFromSlice: drops every occurrence of item. -/
def removeFromSlice (slice : List String) (item : String) : List String :=
  slice.filter (fun s => !(decide (s = item)))

/-- Dependency list of the node at a path (empty when the node is absent). -/
def nodeDeps (g : Graph) (p : String) : List String :=
  match lookupMap g p with
  | some n => n.dependencies
  | none => []

/-- Dependents list of the node at a path (empty when the node is absent).
This is also the value GetDependents returns. -/
def nodeDependents (g : Graph) (p : String) : List String :=
  match lookupMap g p with
  | some n => n.dependents
  | none => []

/-- Whether the graph has a node at a path. -/
def hasNode (g : Graph) (p : String) : Prop := (lookupMap g p).isSome = true

instance (g : Graph) (p : String) : Decidable (hasNode g p) := by
  unfold hasNode
  infer_instance

/-- Mirrors DependencyGraph.addDependentRelationship: auto-creates the
dependency node, then appends the dependent if not already present. -/
def addDependentRelationship (g : Graph) (dependencyPath dependentPath : String) : Graph :=
  let g' := if (lookupMap g dependencyPath).isSome then g
            else setMap g dependencyPath (newDepNode dependencyPath)
  match lookupMap g' dependencyPath with
  | some depNode =>
      if dependentPath ∈ depNode.dependents then g'
      else setMap g' dependencyPath
        { depNode with dependents := depNode.dependents ++ [dependentPath] }
  | none => g'

/-- Mirrors DependencyGraph.removeDependentRelationship. -/
def removeDependentRelationship (g : Graph) (dependencyPath dependentPath : String) : Graph :=
  match lookupMap g dependencyPath with
  | some depNode =>
      setMap g dependencyPath
        { depNode with dependents := removeFromSlice depNode.dependents dependentPath }
  | none => g

/-- Mirrors DependencyGraph.UpdateNode: ensure the node exists, unlink the
old dependencies' dependent lists, install the new dependency list, link the
new dependencies' dependent lists. -/
def UpdateNode (g : Graph) (filePath : String) (dependencies : List String) : Graph :=
  let g0 := if (lookupMap g filePath).isSome then g
            else setMap g filePath (newDepNode filePath)
  let oldDeps := nodeDeps g0 filePath
  let g1 := oldDeps.foldl (fun gacc oldDep =>
      removeDependentRelationship gacc oldDep filePath) g0
  let g2 := match lookupMap g1 filePath with
    | some n => setMap g1 filePath { n with dependencies := dependencies }
    | none => g1
  dependencies.foldl (fun gacc newDep => addDependentRelationship gacc newDep filePath) g2

/-- Body of the second RemoveNode loop: strip filePath from one
dependent's dependency list (no-op when the dependent has no node). -/
def removeDependencyEntry (gacc : Graph) (dependent filePath : String) : Graph :=
  match lookupMap gacc dependent with
  | some depNode =>
      setMap gacc dependent
        { depNode with dependencies := removeFromSlice depNode.dependencies filePath }
  | none => gacc

/-- Mirrors DependencyGraph.RemoveNode: unlink both directions, then delete
the node. The dependents snapshot is re-read after the first loop because
the Go loop ranges over the live slice of the node being removed. -/
def RemoveNode (g : Graph) (filePath : String) : Graph :=
  match lookupMap g filePath with
  | none => g
  | some node =>
      let g1 := node.dependencies.foldl (fun gacc dep =>
          removeDependentRelationship gacc dep filePath) g
      let dpts := nodeDependents g1 filePath
      let g2 := dpts.foldl (fun gacc dependent =>
          removeDependencyEntry gacc dependent filePath) g1
      eraseKey g2 filePath

/-- Local import of a parsed file, mirroring models.LocalDependency. -/
structure LocalDependency where
  importPath : String
  relativePath : String
  aliasName : String
deriving DecidableEq, Repr

/-- Import analysis of a parsed file, mirroring models.DependencyAnalysis. -/
structure DependencyAnalysis where
  standardLibImports : List String
  externalImports : List String
  localImports : List LocalDependency
deriving DecidableEq, Repr

/-- Semantic extraction of one source file, mirroring models.ParsedFile.
The dependencies field is an Option because the Go field is a nil-able
pointer. -/
structure ParsedFile where
  path : String
  packageName : String
  methods : List String
  relPath : String
  dependencies : Option DependencyAnalysis
deriving DecidableEq, Repr

/-- Import paths of a parsed file's local imports. -/
def localImportPaths (pf : ParsedFile) : List String :=
  match pf.dependencies with
  | some da => da.localImports.map (·.importPath)
  | none => []

/-- Second-pass body of BuildGraph for one parsed file: wire the file's
local imports as dependency edges and back-edges. -/
def buildGraphStep (gacc : Graph) (kv : String × ParsedFile) : Graph :=
  match kv.2.dependencies with
  | none => gacc
  | some da =>
      let deps := da.localImports.map (·.importPath)
      let gb := deps.foldl (fun gi ip => addDependentRelationship gi ip kv.1) gacc
      match lookupMap gb kv.1 with
      | some n => setMap gb kv.1 { n with dependencies := deps }
      | none => gb

/-- Mirrors DependencyGraph.BuildGraph: clear, create a node per parsed
file, then wire dependency edges and back-edges. -/
def BuildGraph (parsedFiles : List (String × ParsedFile)) : Graph :=
  let g1 := parsedFiles.foldl (fun gacc kv => setMap gacc kv.1 (newDepNode kv.1)) []
  parsedFiles.foldl buildGraphStep g1

/-- Mirrors DependencyGraph.GetDependents (returns a copy of the list). -/
def GetDependents (g : Graph) (filePath : String) : List String :=
  nodeDependents g filePath

/-- Mirrors DependencyGraph.GetDependencies (returns a copy of the list). -/
def GetDependencies (g : Graph) (filePath : String) : List String :=
  nodeDeps g filePath

/-! ### Depth-first propagation (GetAffectedFiles / dfsVisitDependents)

The Go recursion terminates because the visited set grows; the embedding
makes that explicit with a fuel argument, and GetAffectedFiles passes fuel
that is provably sufficient (one more than the node count). -/

mutual

/-- Mirrors DependencyGraph.dfsVisitDependents for a single start node:
mark the node visited, then walk its dependents, appending each to the
affected accumulator before recursing into it. Returns (visited, affected). -/
def dfsVisitDependents (g : Graph) : Nat → String → List String → List String →
    List String × List String
  | 0, _, visited, affected => (visited, affected)
  | fuel + 1, filePath, visited, affected =>
      if filePath ∈ visited then (visited, affected)
      else
        let visited' := filePath :: visited
        match lookupMap g filePath with
        | none => (visited', affected)
        | some node => dfsDependentsList g fuel node.dependents visited' affected

/-- The loop over a node's dependents inside dfsVisitDependents. -/
def dfsDependentsList (g : Graph) : Nat → List String → List String → List String →
    List String × List String
  | _, [], visited, affected => (visited, affected)
  | fuel, d :: rest, visited, affected =>
      let r := dfsVisitDependents g fuel d visited (affected ++ [d])
      dfsDependentsList g fuel rest r.1 r.2

end

/-- Mirrors DependencyGraph.GetAffectedFiles: DFS over dependent edges from
the changed file, with an empty initial visited set. -/
def GetAffectedFiles (g : Graph) (changedFile : String) : List String :=
  (dfsVisitDependents g (g.length + 1) changedFile [] []).2

/-- One dependent (reverse-dependency) edge of the graph. -/
def depEdge (g : Graph) (a b : String) : Prop := b ∈ nodeDependents g a

/-- One dependency edge of the graph (a depends on b). -/
def dependsOn (g : Graph) (a b : String) : Prop := b ∈ nodeDeps g a

/-- The graph is acyclic with respect to dependency edges. -/
def Acyclic (g : Graph) : Prop := ∀ x, ¬ Relation.TransGen (dependsOn g) x x

/-! ### DFS characterization lemmas -/

/-- Count of graph keys not yet visited; the DFS recursion measure. -/
def unvisitedCount (g : Graph) (visited : List String) : Nat :=
  ((mapKeys g).filter (fun k => decide (k ∉ visited))).length

theorem filter_length_mono {α : Type u} (l : List α) (p q : α → Bool)
    (h : ∀ x, p x = true → q x = true) : (l.filter p).length ≤ (l.filter q).length := by
  induction l with
  | nil => simp
  | cons a rest ih =>
      by_cases hp : p a = true
      · simp [List.filter, hp, h a hp]
        omega
      · have : p a = false := Bool.eq_false_iff.mpr hp
        cases hq : q a <;> simp [List.filter, this, hq] <;> omega

theorem unvisitedCount_anti (g : Graph) (v v' : List String) (h : ∀ x ∈ v, x ∈ v') :
    unvisitedCount g v' ≤ unvisitedCount g v := by
  apply filter_length_mono
  intro x hx
  simp only [decide_eq_true_eq] at hx ⊢
  intro hxv
  exact hx (h x hxv)

theorem unvisitedCount_lt (g : Graph) (v : List String) (p : String)
    (hp : p ∈ mapKeys g) (hnv : p ∉ v) : unvisitedCount g (p :: v) < unvisitedCount g v := by
  unfold unvisitedCount
  generalize mapKeys g = l at hp
  induction l with
  | nil => simp at hp
  | cons k rest ih =>
      rw [List.filter_cons, List.filter_cons]
      by_cases hkp : k = p
      · subst hkp
        have hd1 : (decide (k ∉ k :: v)) = false := by simp
        have hd2 : (decide (k ∉ v)) = true := by simpa using hnv
        rw [hd1, hd2]
        have h1 : (rest.filter (fun x => decide (x ∉ k :: v))).length ≤
            (rest.filter (fun x => decide (x ∉ v))).length := by
          apply filter_length_mono
          intro x hx
          simp only [decide_eq_true_eq, List.mem_cons, not_or] at hx ⊢
          exact hx.2
        simp only [Bool.false_eq_true, if_false, if_true, List.length_cons]
        omega
      · have hk : p ∈ rest := by
          rcases List.mem_cons.mp hp with h | h
          · exact absurd h.symm hkp
          · exact h
        have hd : (decide (k ∉ p :: v)) = decide (k ∉ v) := by
          by_cases hkv : k ∈ v
          · simp [hkv]
          · simp [hkv, hkp]
        rw [hd]
        cases hdv : decide (k ∉ v) with
        | false => simpa [hdv] using ih hk
        | true =>
            simp only [hdv, if_true, List.length_cons]
            exact Nat.succ_lt_succ (ih hk)

theorem dfs_visited_mono (g : Graph) :
    ∀ fuel p v a, ∀ x ∈ v, x ∈ (dfsVisitDependents g fuel p v a).1 := by
  intro fuel
  induction fuel with
  | zero => intro p v a x hx; simpa [dfsVisitDependents] using hx
  | succ fuel ih =>
      have hlist : ∀ ds v a, (∀ x ∈ v, x ∈ (dfsDependentsList g fuel ds v a).1) := by
        intro ds
        induction ds with
        | nil => intro v a x hx; simpa [dfsDependentsList] using hx
        | cons d rest ihl =>
            intro v a x hx
            simp only [dfsDependentsList]
            exact ihl _ _ x (ih d v (a ++ [d]) x hx)
      intro p v a x hx
      simp only [dfsVisitDependents]
      by_cases hv : p ∈ v
      · simpa [hv] using hx
      · simp only [hv, if_neg, ite_false]
        cases hl : lookupMap g p with
        | none => simpa [hl] using List.mem_cons_of_mem _ hx
        | some node =>
            simp only [hl]
            exact hlist node.dependents (p :: v) a x (List.mem_cons_of_mem _ hx)

theorem dfsList_visited_mono (g : Graph) :
    ∀ fuel ds v a, ∀ x ∈ v, x ∈ (dfsDependentsList g fuel ds v a).1 := by
  intro fuel ds
  induction ds with
  | nil => intro v a x hx; simpa [dfsDependentsList] using hx
  | cons d rest ihl =>
      intro v a x hx
      simp only [dfsDependentsList]
      exact ihl _ _ x (dfs_visited_mono g fuel d v (a ++ [d]) x hx)

theorem dfs_affected_mono (g : Graph) :
    ∀ fuel p v a, ∃ t, (dfsVisitDependents g fuel p v a).2 = a ++ t := by
  intro fuel
  induction fuel with
  | zero => intro p v a; exact ⟨[], by simp [dfsVisitDependents]⟩
  | succ fuel ih =>
      have hlist : ∀ ds v a, ∃ t, (dfsDependentsList g fuel ds v a).2 = a ++ t := by
        intro ds
        induction ds with
        | nil => intro v a; exact ⟨[], by simp [dfsDependentsList]⟩
        | cons d rest ihl =>
            intro v a
            simp only [dfsDependentsList]
            obtain ⟨t1, ht1⟩ := ih d v (a ++ [d])
            obtain ⟨t2, ht2⟩ :=
              ihl (dfsVisitDependents g fuel d v (a ++ [d])).1
                (dfsVisitDependents g fuel d v (a ++ [d])).2
            refine ⟨[d] ++ t1 ++ t2, ?_⟩
            rw [ht2, ht1]
            simp
      intro p v a
      simp only [dfsVisitDependents]
      by_cases hv : p ∈ v
      · exact ⟨[], by simp [hv]⟩
      · simp only [hv, ite_false]
        cases hl : lookupMap g p with
        | none => exact ⟨[], by simp⟩
        | some node => exact hlist node.dependents (p :: v) a

theorem dfsList_affected_mono (g : Graph) :
    ∀ fuel ds v a, ∃ t, (dfsDependentsList g fuel ds v a).2 = a ++ t := by
  intro fuel ds
  induction ds with
  | nil => intro v a; exact ⟨[], by simp [dfsDependentsList]⟩
  | cons d rest ihl =>
      intro v a
      simp only [dfsDependentsList]
      obtain ⟨t1, ht1⟩ := dfs_affected_mono g fuel d v (a ++ [d])
      obtain ⟨t2, ht2⟩ :=
        ihl (dfsVisitDependents g fuel d v (a ++ [d])).1
          (dfsVisitDependents g fuel d v (a ++ [d])).2
      refine ⟨[d] ++ t1 ++ t2, ?_⟩
      rw [ht2, ht1]
      simp

theorem dfs_mem_affected_of_mem (g : Graph) (fuel : Nat) (p : String) (v a : List String)
    (x : String) (hx : x ∈ a) : x ∈ (dfsVisitDependents g fuel p v a).2 := by
  obtain ⟨t, ht⟩ := dfs_affected_mono g fuel p v a
  rw [ht]
  exact List.mem_append_left _ hx

theorem dfsList_mem_affected_of_mem (g : Graph) (fuel : Nat) (ds v a : List String)
    (x : String) (hx : x ∈ a) : x ∈ (dfsDependentsList g fuel ds v a).2 := by
  obtain ⟨t, ht⟩ := dfsList_affected_mono g fuel ds v a
  rw [ht]
  exact List.mem_append_left _ hx

theorem dfs_self_visited (g : Graph) (fuel : Nat) (p : String) (v a : List String)
    (hfuel : 1 ≤ fuel) : p ∈ (dfsVisitDependents g fuel p v a).1 := by
  cases fuel with
  | zero => omega
  | succ fuel =>
      simp only [dfsVisitDependents]
      by_cases hv : p ∈ v
      · simp [hv]
      · simp only [hv, ite_false]
        cases hl : lookupMap g p with
        | none => simp
        | some node =>
            exact dfsList_visited_mono g fuel node.dependents (p :: v) a p
              (List.mem_cons_self _ _)

theorem dfsList_sound_of_visit (g : Graph) (fuel : Nat)
    (hv : ∀ p v a x, x ∈ (dfsVisitDependents g fuel p v a).2 →
      x ∈ a ∨ Relation.TransGen (depEdge g) p x) :
    ∀ ds v a x, x ∈ (dfsDependentsList g fuel ds v a).2 →
      x ∈ a ∨ ∃ d ∈ ds, x = d ∨ Relation.TransGen (depEdge g) d x := by
  intro ds
  induction ds with
  | nil => intro v a x hx; exact Or.inl (by simpa [dfsDependentsList] using hx)
  | cons d rest ih =>
      intro v a x hx
      simp only [dfsDependentsList] at hx
      rcases ih _ _ x hx with h1 | ⟨d', hd', h2⟩
      · rcases hv d v (a ++ [d]) x h1 with h2 | h2
        · rcases List.mem_append.mp h2 with h3 | h3
          · exact Or.inl h3
          · exact Or.inr ⟨d, List.mem_cons_self _ _, Or.inl (by simpa using h3)⟩
        · exact Or.inr ⟨d, List.mem_cons_self _ _, Or.inr h2⟩
      · exact Or.inr ⟨d', List.mem_cons_of_mem _ hd', h2⟩

theorem dfs_sound_visit (g : Graph) :
    ∀ fuel p v a x, x ∈ (dfsVisitDependents g fuel p v a).2 →
      x ∈ a ∨ Relation.TransGen (depEdge g) p x := by
  intro fuel
  induction fuel with
  | zero => intro p v a x hx; exact Or.inl (by simpa [dfsVisitDependents] using hx)
  | succ fuel ih =>
      intro p v a x hx
      simp only [dfsVisitDependents] at hx
      by_cases hpv : p ∈ v
      · exact Or.inl (by simpa [hpv] using hx)
      · simp only [hpv, ite_false] at hx
        cases hl : lookupMap g p with
        | none => exact Or.inl (by simpa [hl] using hx)
        | some node =>
            rw [hl] at hx
            rcases dfsList_sound_of_visit g fuel ih node.dependents (p :: v) a x hx with
              h1 | ⟨d, hd, h2⟩
            · exact Or.inl h1
            · have hedge : depEdge g p d := by
                unfold depEdge nodeDependents
                rw [hl]
                exact hd
              rcases h2 with h3 | h3
              · exact Or.inr (h3 ▸ Relation.TransGen.single hedge)
              · exact Or.inr (Relation.TransGen.head hedge h3)

/-- Completeness invariant of the DFS, proven for the visit and the list
function together by induction on the fuel: with enough fuel, every edge
out of a newly visited node has its target visited and appended. -/
theorem dfs_complete (g : Graph) : ∀ fuel,
    (∀ p v a, unvisitedCount g v < fuel →
      ∀ y ∈ (dfsVisitDependents g fuel p v a).1, y ∉ v →
        ∀ d, depEdge g y d → d ∈ (dfsVisitDependents g fuel p v a).1 ∧
          d ∈ (dfsVisitDependents g fuel p v a).2) ∧
    (∀ ds v a, unvisitedCount g v < fuel →
      (∀ y ∈ (dfsDependentsList g fuel ds v a).1, y ∉ v →
        ∀ d, depEdge g y d → d ∈ (dfsDependentsList g fuel ds v a).1 ∧
          d ∈ (dfsDependentsList g fuel ds v a).2) ∧
      (∀ d ∈ ds, d ∈ (dfsDependentsList g fuel ds v a).1 ∧
        d ∈ (dfsDependentsList g fuel ds v a).2)) := by
  intro fuel
  induction fuel with
  | zero =>
      constructor
      · intro p v a hf
        omega
      · intro ds v a hf
        omega
  | succ fuel ih =>
      have hvisit : ∀ p v a, unvisitedCount g v < fuel + 1 →
          ∀ y ∈ (dfsVisitDependents g (fuel + 1) p v a).1, y ∉ v →
            ∀ d, depEdge g y d → d ∈ (dfsVisitDependents g (fuel + 1) p v a).1 ∧
              d ∈ (dfsVisitDependents g (fuel + 1) p v a).2 := by
        intro p v a hf y hy hyv d hd
        simp only [dfsVisitDependents] at hy ⊢
        by_cases hpv : p ∈ v
        · exact absurd (by simpa [hpv] using hy) hyv
        · simp only [hpv, ite_false] at hy ⊢
          cases hl : lookupMap g p with
          | none =>
              rw [hl] at hy
              have hyp : y = p := by
                rcases List.mem_cons.mp (by simpa using hy) with h | h
                · exact h
                · exact absurd h hyv
              subst hyp
              exact absurd hd (by simp [depEdge, nodeDependents, hl])
          | some node =>
              rw [hl] at hy
              have hpkey : p ∈ mapKeys g := by
                rw [← lookupMap_isSome_iff_mem_keys, hl]
                rfl
              have hm : unvisitedCount g (p :: v) < fuel := by
                have := unvisitedCount_lt g v p hpkey hpv
                omega
              obtain ⟨hA, hB⟩ := ih.2 node.dependents (p :: v) a hm
              by_cases hyp : y = p
              · subst hyp
                have hdd : d ∈ node.dependents := by
                  have : nodeDependents g y = node.dependents := by
                    simp [nodeDependents, hl]
                  simpa [depEdge, this] using hd
                exact hB d hdd
              · exact hA y hy (by simp [hyp, hyv]) d hd
      refine ⟨hvisit, ?_⟩
      intro ds
      induction ds with
      | nil =>
          intro v a hf
          refine ⟨?_, by simp⟩
          intro y hy hyv
          exact absurd (by simpa [dfsDependentsList] using hy) hyv
      | cons d rest ihl =>
          intro v a hf
          simp only [dfsDependentsList]
          have hmono := dfs_visited_mono g (fuel + 1) d v (a ++ [d])
          have hm2 : unvisitedCount g (dfsVisitDependents g (fuel + 1) d v (a ++ [d])).1 <
              fuel + 1 := by
            have := unvisitedCount_anti g v (dfsVisitDependents g (fuel + 1) d v (a ++ [d])).1
              hmono
            omega
          obtain ⟨hA2, hB2⟩ := ihl _ _ hm2
          constructor
          · intro y hy hyv d' hd'
            by_cases hy1 : y ∈ (dfsVisitDependents g (fuel + 1) d v (a ++ [d])).1
            · obtain ⟨h1, h2⟩ := hvisit d v (a ++ [d]) hf y hy1 hyv d' hd'
              exact ⟨dfsList_visited_mono g (fuel + 1) rest _ _ d' h1,
                dfsList_mem_affected_of_mem g (fuel + 1) rest _ _ d' h2⟩
            · exact hA2 y hy hy1 d' hd'
          · intro d' hd'
            rcases List.mem_cons.mp hd' with h1 | h1
            · subst h1
              have hdv : d' ∈ (dfsVisitDependents g (fuel + 1) d' v (a ++ [d'])).1 :=
                dfs_self_visited g (fuel + 1) d' v (a ++ [d']) (by omega)
              have hda : d' ∈ (dfsVisitDependents g (fuel + 1) d' v (a ++ [d'])).2 :=
                dfs_mem_affected_of_mem g (fuel + 1) d' v (a ++ [d']) d'
                  (List.mem_append_right _ (List.mem_singleton_self _))
              exact ⟨dfsList_visited_mono g (fuel + 1) rest _ _ d' hdv,
                dfsList_mem_affected_of_mem g (fuel + 1) rest _ _ d' hda⟩
            · exact hB2 d' h1

/-- Characterization of the DFS propagation: membership in the affected
list is exactly transitive reachability over dependent edges. -/
theorem mem_GetAffectedFiles_iff (g : Graph) (f x : String) :
    x ∈ GetAffectedFiles g f ↔ Relation.TransGen (depEdge g) f x := by
  constructor
  · intro hx
    rcases dfs_sound_visit g (g.length + 1) f [] [] x hx with h | h
    · simp at h
    · exact h
  · intro htg
    have hfuel : unvisitedCount g [] < g.length + 1 := by
      unfold unvisitedCount
      have h1 : ((mapKeys g).filter (fun k => decide (k ∉ ([] : List String)))).length ≤
          (mapKeys g).length := List.length_filter_le _ _
      have h2 : (mapKeys g).length = g.length := List.length_map _ _
      omega
    have hstart : f ∈ (dfsVisitDependents g (g.length + 1) f [] []).1 :=
      dfs_self_visited g (g.length + 1) f [] [] (by omega)
    have key : ∀ y, Relation.TransGen (depEdge g) f y →
        y ∈ (dfsVisitDependents g (g.length + 1) f [] []).1 ∧
        y ∈ (dfsVisitDependents g (g.length + 1) f [] []).2 := by
      intro y hy
      induction hy with
      | single h =>
          exact (dfs_complete g (g.length + 1)).1 f [] [] hfuel f hstart (by simp) _ h
      | tail h1 h2 ih =>
          exact (dfs_complete g (g.length + 1)).1 f [] [] hfuel _ ih.1 (by simp) _ h2
    exact (key x htg).2

/-- Example graph, node a with dependent b, inserted a-first. -/
def exampleGraphA : Graph :=
  [("a", { filePath := "a", nodeType := .SourceFile, dependencies := [],
           dependents := ["b"], contentHash := "" }),
   ("b", { filePath := "b", nodeType := .SourceFile, dependencies := ["a"],
           dependents := [], contentHash := "" })]

/-- The same graph as exampleGraphA with the two nodes inserted in the
opposite order. -/
def exampleGraphB : Graph :=
  [("b", { filePath := "b", nodeType := .SourceFile, dependencies := ["a"],
           dependents := [], contentHash := "" }),
   ("a", { filePath := "a", nodeType := .SourceFile, dependencies := [],
           dependents := ["b"], contentHash := "" })]

theorem exampleGraph_lookup_eq (p : String) :
    lookupMap exampleGraphA p = lookupMap exampleGraphB p := by
  by_cases h1 : p = "a"
  · subst h1
    simp [exampleGraphA, exampleGraphB, lookupMap]
  · by_cases h2 : p = "b"
    · subst h2
      simp [exampleGraphA, exampleGraphB, lookupMap]
    · simp [exampleGraphA, exampleGraphB, lookupMap, h1, h2]

theorem exampleGraph_depEdge_iff (a b : String) :
    depEdge exampleGraphA a b ↔ depEdge exampleGraphB a b := by
  unfold depEdge nodeDependents
  rw [exampleGraph_lookup_eq a]

/-- C3: GetAffectedFiles returns, as a set, exactly the nodes reachable
from the changed file through one or more dependent edges, and two graphs
with the same dependent-edge relation (for example the same edge set
inserted in different orders) give the same affected set. -/
theorem C3_GetAffectedFiles_reachable_and_order_independent (g g' : Graph) (f x : String) :
    (x ∈ GetAffectedFiles g f ↔ Relation.TransGen (depEdge g) f x) ∧
    ((∀ a b, depEdge g a b ↔ depEdge g' a b) →
      (x ∈ GetAffectedFiles g f ↔ x ∈ GetAffectedFiles g' f)) := by
  refine ⟨mem_GetAffectedFiles_iff g f x, ?_⟩
  intro h
  rw [mem_GetAffectedFiles_iff, mem_GetAffectedFiles_iff]
  constructor
  · intro hh
    exact Relation.TransGen.mono (fun a b hab => (h a b).mp hab) hh
  · intro hh
    exact Relation.TransGen.mono (fun a b hab => (h a b).mpr hab) hh

/-- Witness for C3 at a concrete input: a two-node graph built in two
insertion orders. -/
theorem C3_witness :
    (("b" ∈ GetAffectedFiles exampleGraphA "a" ↔
        Relation.TransGen (depEdge exampleGraphA) "a" "b") ∧
      ("b" ∈ GetAffectedFiles exampleGraphA "a" ↔
        "b" ∈ GetAffectedFiles exampleGraphB "a")) :=
  ⟨(C3_GetAffectedFiles_reachable_and_order_independent exampleGraphA exampleGraphB "a" "b").1,
    (C3_GetAffectedFiles_reachable_and_order_independent exampleGraphA exampleGraphB "a" "b").2
      exampleGraph_depEdge_iff⟩

/-! ### Transpose invariant of the graph (claim C4) -/

theorem mem_removeFromSlice (l : List String) (x y : String) :
    y ∈ removeFromSlice l x ↔ y ∈ l ∧ y ≠ x := by
  simp [removeFromSlice, List.mem_filter]

theorem removeFromSlice_idem (l : List String) (x : String) :
    removeFromSlice (removeFromSlice l x) x = removeFromSlice l x := by
  simp [removeFromSlice, List.filter_filter]

theorem nodeDeps_setMap (g : Graph) (k : String) (n : DependencyNode) (x : String) :
    nodeDeps (setMap g k n) x = if x = k then n.dependencies else nodeDeps g x := by
  by_cases h : x = k
  · subst h
    simp [nodeDeps, lookupMap_setMap_self]
  · simp [nodeDeps, lookupMap_setMap_ne g k x n h, h]

theorem nodeDependents_setMap (g : Graph) (k : String) (n : DependencyNode) (x : String) :
    nodeDependents (setMap g k n) x = if x = k then n.dependents else nodeDependents g x := by
  by_cases h : x = k
  · subst h
    simp [nodeDependents, lookupMap_setMap_self]
  · simp [nodeDependents, lookupMap_setMap_ne g k x n h, h]

theorem hasNode_setMap (g : Graph) (k : String) (n : DependencyNode) (x : String) :
    hasNode (setMap g k n) x ↔ x = k ∨ hasNode g x := by
  by_cases h : x = k
  · subst h
    simp [hasNode, lookupMap_setMap_self]
  · simp [hasNode, lookupMap_setMap_ne g k x n h, h]

theorem nodeDeps_addDependentRelationship (g : Graph) (dep dpt x : String) :
    nodeDeps (addDependentRelationship g dep dpt) x = nodeDeps g x := by
  unfold addDependentRelationship
  cases hs : (lookupMap g dep).isSome with
  | true =>
      simp only [hs, if_true]
      cases hl : lookupMap g dep with
      | none => simp [hl] at hs
      | some depNode =>
          simp only [hl]
          by_cases hmem : dpt ∈ depNode.dependents
          · simp [hmem]
          · simp only [hmem, ite_false]
            rw [nodeDeps_setMap]
            by_cases hx : x = dep
            · subst hx
              simp [nodeDeps, hl]
            · simp [hx]
  | false =>
      simp only [hs, Bool.false_eq_true, if_false]
      have hl : lookupMap g dep = none := by
        cases h : lookupMap g dep
        · rfl
        · rw [h] at hs; simp at hs
      rw [lookupMap_setMap_self]
      simp only [newDepNode, List.not_mem_nil, ite_false]
      rw [nodeDeps_setMap]
      by_cases hx : x = dep
      · subst hx
        rw [nodeDeps_setMap]
        simp [nodeDeps, hl, newDepNode]
      · rw [nodeDeps_setMap]
        simp [hx]

theorem nodeDependents_addDependentRelationship (g : Graph) (dep dpt x : String) :
    nodeDependents (addDependentRelationship g dep dpt) x =
      if x = dep then
        (if dpt ∈ nodeDependents g dep then nodeDependents g dep
         else nodeDependents g dep ++ [dpt])
      else nodeDependents g x := by
  unfold addDependentRelationship
  cases hs : (lookupMap g dep).isSome with
  | true =>
      simp only [hs, if_true]
      cases hl : lookupMap g dep with
      | none => simp [hl] at hs
      | some depNode =>
          have hnd : nodeDependents g dep = depNode.dependents := by
            simp [nodeDependents, hl]
          simp only [hl, hnd]
          by_cases hmem : dpt ∈ depNode.dependents
          · simp only [hmem, ite_true]
            by_cases hx : x = dep <;> simp [hx, hnd]
          · simp only [hmem, ite_false]
            rw [nodeDependents_setMap]
  | false =>
      simp only [hs, Bool.false_eq_true, if_false]
      have hl : lookupMap g dep = none := by
        cases h : lookupMap g dep
        · rfl
        · rw [h] at hs; simp at hs
      have hnd : nodeDependents g dep = [] := by
        simp [nodeDependents, hl]
      rw [lookupMap_setMap_self]
      simp only [newDepNode, List.not_mem_nil, ite_false]
      rw [nodeDependents_setMap]
      by_cases hx : x = dep
      · subst hx
        rw [nodeDependents_setMap]
        simp [hnd]
      · rw [nodeDependents_setMap]
        simp [hx]

theorem hasNode_addDependentRelationship (g : Graph) (dep dpt x : String) :
    hasNode (addDependentRelationship g dep dpt) x ↔ x = dep ∨ hasNode g x := by
  unfold addDependentRelationship
  cases hs : (lookupMap g dep).isSome with
  | true =>
      simp only [hs, if_true]
      cases hl : lookupMap g dep with
      | none => simp [hl] at hs
      | some depNode =>
          simp only [hl]
          by_cases hmem : dpt ∈ depNode.dependents
          · simp only [hmem, ite_true]
            constructor
            · exact Or.inr
            · rintro (h | h)
              · subst h
                simp [hasNode, hl]
              · exact h
          · simp only [hmem, ite_false]
            rw [hasNode_setMap]
  | false =>
      simp only [hs, Bool.false_eq_true, if_false]
      rw [lookupMap_setMap_self]
      simp only [newDepNode, List.not_mem_nil, ite_false]
      rw [hasNode_setMap, hasNode_setMap]
      tauto

theorem nodupKeys_addDependentRelationship (g : Graph) (dep dpt : String)
    (hnd : (mapKeys g).Nodup) :
    (mapKeys (addDependentRelationship g dep dpt)).Nodup := by
  unfold addDependentRelationship
  cases hs : (lookupMap g dep).isSome with
  | true =>
      simp only [hs, if_true]
      cases hl : lookupMap g dep with
      | none => simp [hl] at hs
      | some depNode =>
          simp only [hl]
          by_cases hmem : dpt ∈ depNode.dependents
          · simpa [hmem] using hnd
          · simp only [hmem, ite_false]
            exact nodupKeys_setMap _ _ _ hnd
  | false =>
      simp only [hs, Bool.false_eq_true, if_false]
      rw [lookupMap_setMap_self]
      simp only [newDepNode, List.not_mem_nil, ite_false]
      exact nodupKeys_setMap _ _ _ (nodupKeys_setMap _ _ _ hnd)

theorem nodeDeps_removeDependentRelationship (g : Graph) (dep dpt x : String) :
    nodeDeps (removeDependentRelationship g dep dpt) x = nodeDeps g x := by
  unfold removeDependentRelationship
  cases hl : lookupMap g dep with
  | none => rfl
  | some depNode =>
      rw [nodeDeps_setMap]
      by_cases hx : x = dep
      · subst hx
        simp [nodeDeps, hl]
      · simp [hx]

theorem nodeDependents_removeDependentRelationship (g : Graph) (dep dpt x : String) :
    nodeDependents (removeDependentRelationship g dep dpt) x =
      if x = dep then removeFromSlice (nodeDependents g x) dpt else nodeDependents g x := by
  unfold removeDependentRelationship
  cases hl : lookupMap g dep with
  | none =>
      by_cases hx : x = dep
      · subst hx
        simp [nodeDependents, hl, removeFromSlice]
      · simp [hx]
  | some depNode =>
      rw [nodeDependents_setMap]
      by_cases hx : x = dep
      · subst hx
        simp [nodeDependents, hl]
      · simp [hx]

theorem hasNode_removeDependentRelationship (g : Graph) (dep dpt x : String) :
    hasNode (removeDependentRelationship g dep dpt) x ↔ hasNode g x := by
  unfold removeDependentRelationship
  cases hl : lookupMap g dep with
  | none => rfl
  | some depNode =>
      rw [hasNode_setMap]
      constructor
      · rintro (h | h)
        · subst h
          simp [hasNode, hl]
        · exact h
      · exact Or.inr

theorem nodupKeys_removeDependentRelationship (g : Graph) (dep dpt : String)
    (hnd : (mapKeys g).Nodup) :
    (mapKeys (removeDependentRelationship g dep dpt)).Nodup := by
  unfold removeDependentRelationship
  cases hl : lookupMap g dep with
  | none => exact hnd
  | some depNode => exact nodupKeys_setMap _ _ _ hnd

/-! ### Fold-level effect lemmas -/

theorem nodeDeps_removeFold (olds : List String) (fp : String) : ∀ (g : Graph) (x : String),
    nodeDeps (olds.foldl (fun gacc o => removeDependentRelationship gacc o fp) g) x =
      nodeDeps g x := by
  induction olds with
  | nil => intro g x; rfl
  | cons o rest ih =>
      intro g x
      simp only [List.foldl]
      rw [ih, nodeDeps_removeDependentRelationship]

theorem nodeDependents_removeFold (olds : List String) (fp : String) :
    ∀ (g : Graph) (x : String),
    nodeDependents (olds.foldl (fun gacc o => removeDependentRelationship gacc o fp) g) x =
      if x ∈ olds then removeFromSlice (nodeDependents g x) fp else nodeDependents g x := by
  induction olds with
  | nil => intro g x; simp
  | cons o rest ih =>
      intro g x
      simp only [List.foldl]
      rw [ih, nodeDependents_removeDependentRelationship]
      by_cases hxo : x = o
      · subst hxo
        by_cases hxr : x ∈ rest <;>
          simp [hxr, removeFromSlice_idem, List.mem_cons]
      · by_cases hxr : x ∈ rest <;>
          simp [hxo, hxr, List.mem_cons]

theorem hasNode_removeFold (olds : List String) (fp : String) : ∀ (g : Graph) (x : String),
    hasNode (olds.foldl (fun gacc o => removeDependentRelationship gacc o fp) g) x ↔
      hasNode g x := by
  induction olds with
  | nil => intro g x; rfl
  | cons o rest ih =>
      intro g x
      simp only [List.foldl]
      rw [ih, hasNode_removeDependentRelationship]

theorem nodupKeys_removeFold (olds : List String) (fp : String) : ∀ (g : Graph),
    (mapKeys g).Nodup →
    (mapKeys (olds.foldl (fun gacc o => removeDependentRelationship gacc o fp) g)).Nodup := by
  induction olds with
  | nil => intro g h; exact h
  | cons o rest ih =>
      intro g h
      simp only [List.foldl]
      exact ih _ (nodupKeys_removeDependentRelationship g o fp h)

theorem nodeDeps_addFold (deps : List String) (fp : String) : ∀ (g : Graph) (x : String),
    nodeDeps (deps.foldl (fun gacc nd => addDependentRelationship gacc nd fp) g) x =
      nodeDeps g x := by
  induction deps with
  | nil => intro g x; rfl
  | cons d rest ih =>
      intro g x
      simp only [List.foldl]
      rw [ih, nodeDeps_addDependentRelationship]

theorem mem_nodeDependents_addDependentRelationship (g : Graph) (dep dpt x y : String) :
    y ∈ nodeDependents (addDependentRelationship g dep dpt) x ↔
      y ∈ nodeDependents g x ∨ (y = dpt ∧ x = dep) := by
  rw [nodeDependents_addDependentRelationship]
  by_cases hx : x = dep
  · subst hx
    by_cases hmem : dpt ∈ nodeDependents g x
    · simp only [hmem, ite_true]
      constructor
      · exact fun h => Or.inl h
      · rintro (h | ⟨h1, _⟩)
        · exact h
        · exact h1 ▸ hmem
    · simp only [hmem, ite_false, ite_true, List.mem_append, List.mem_singleton]
      tauto
  · simp [hx]

theorem mem_nodeDependents_addFold (deps : List String) (fp : String) :
    ∀ (g : Graph) (x y : String),
    (y ∈ nodeDependents (deps.foldl (fun gacc nd => addDependentRelationship gacc nd fp) g) x ↔
      y ∈ nodeDependents g x ∨ (y = fp ∧ x ∈ deps)) := by
  induction deps with
  | nil => intro g x y; simp
  | cons d rest ih =>
      intro g x y
      simp only [List.foldl]
      rw [ih, mem_nodeDependents_addDependentRelationship]
      simp only [List.mem_cons]
      tauto

theorem hasNode_addFold (deps : List String) (fp : String) : ∀ (g : Graph) (x : String),
    (hasNode (deps.foldl (fun gacc nd => addDependentRelationship gacc nd fp) g) x ↔
      x ∈ deps ∨ hasNode g x) := by
  induction deps with
  | nil => intro g x; simp
  | cons d rest ih =>
      intro g x
      simp only [List.foldl]
      rw [ih, hasNode_addDependentRelationship]
      simp only [List.mem_cons]
      tauto

theorem nodupKeys_addFold (deps : List String) (fp : String) : ∀ (g : Graph),
    (mapKeys g).Nodup →
    (mapKeys (deps.foldl (fun gacc nd => addDependentRelationship gacc nd fp) g)).Nodup := by
  induction deps with
  | nil => intro g h; exact h
  | cons d rest ih =>
      intro g h
      simp only [List.foldl]
      exact ih _ (nodupKeys_addDependentRelationship g d fp h)

theorem nodeDeps_removeDependencyEntry (g : Graph) (d fp x : String) :
    nodeDeps (removeDependencyEntry g d fp) x =
      if x = d then removeFromSlice (nodeDeps g x) fp else nodeDeps g x := by
  unfold removeDependencyEntry
  cases hl : lookupMap g d with
  | none =>
      by_cases hx : x = d
      · subst hx
        simp [nodeDeps, hl, removeFromSlice]
      · simp [hx]
  | some depNode =>
      rw [nodeDeps_setMap]
      by_cases hx : x = d
      · subst hx
        simp [nodeDeps, hl]
      · simp [hx]

theorem nodeDependents_removeDependencyEntry (g : Graph) (d fp x : String) :
    nodeDependents (removeDependencyEntry g d fp) x = nodeDependents g x := by
  unfold removeDependencyEntry
  cases hl : lookupMap g d with
  | none => rfl
  | some depNode =>
      rw [nodeDependents_setMap]
      by_cases hx : x = d
      · subst hx
        simp [nodeDependents, hl]
      · simp [hx]

theorem hasNode_removeDependencyEntry (g : Graph) (d fp x : String) :
    hasNode (removeDependencyEntry g d fp) x ↔ hasNode g x := by
  unfold removeDependencyEntry
  cases hl : lookupMap g d with
  | none => rfl
  | some depNode =>
      rw [hasNode_setMap]
      constructor
      · rintro (h | h)
        · subst h
          simp [hasNode, hl]
        · exact h
      · exact Or.inr

theorem nodupKeys_removeDependencyEntry (g : Graph) (d fp : String)
    (h : (mapKeys g).Nodup) : (mapKeys (removeDependencyEntry g d fp)).Nodup := by
  unfold removeDependencyEntry
  cases hl : lookupMap g d with
  | none => exact h
  | some depNode => exact nodupKeys_setMap _ _ _ h

theorem nodeDeps_removeDepsFold (dpts : List String) (fp : String) :
    ∀ (g : Graph) (x : String),
    nodeDeps (dpts.foldl (fun gacc d => removeDependencyEntry gacc d fp) g) x =
      if x ∈ dpts then removeFromSlice (nodeDeps g x) fp else nodeDeps g x := by
  induction dpts with
  | nil => intro g x; simp
  | cons d rest ih =>
      intro g x
      simp only [List.foldl]
      rw [ih, nodeDeps_removeDependencyEntry]
      by_cases hxd : x = d
      · subst hxd
        by_cases hxr : x ∈ rest <;>
          simp [hxr, removeFromSlice_idem, List.mem_cons]
      · by_cases hxr : x ∈ rest <;>
          simp [hxd, hxr, List.mem_cons]

theorem nodeDependents_removeDepsFold (dpts : List String) (fp : String) :
    ∀ (g : Graph) (x : String),
    nodeDependents (dpts.foldl (fun gacc d => removeDependencyEntry gacc d fp) g) x =
      nodeDependents g x := by
  induction dpts with
  | nil => intro g x; rfl
  | cons d rest ih =>
      intro g x
      simp only [List.foldl]
      rw [ih, nodeDependents_removeDependencyEntry]

theorem hasNode_removeDepsFold (dpts : List String) (fp : String) :
    ∀ (g : Graph) (x : String),
    (hasNode (dpts.foldl (fun gacc d => removeDependencyEntry gacc d fp) g) x ↔
      hasNode g x) := by
  induction dpts with
  | nil => intro g x; rfl
  | cons d rest ih =>
      intro g x
      simp only [List.foldl]
      rw [ih, hasNode_removeDependencyEntry]

theorem nodupKeys_removeDepsFold (dpts : List String) (fp : String) : ∀ (g : Graph),
    (mapKeys g).Nodup →
    (mapKeys (dpts.foldl (fun gacc d => removeDependencyEntry gacc d fp) g)).Nodup := by
  induction dpts with
  | nil => intro g h; exact h
  | cons d rest ih =>
      intro g h
      simp only [List.foldl]
      exact ih _ (nodupKeys_removeDependencyEntry g d fp h)

/-! ### UpdateNode and RemoveNode characterizations -/

theorem nodeDeps_ensure (g : Graph) (fp x : String) :
    nodeDeps (if (lookupMap g fp).isSome then g else setMap g fp (newDepNode fp)) x =
      nodeDeps g x := by
  cases hs : (lookupMap g fp).isSome with
  | true => simp [hs]
  | false =>
      have hl : lookupMap g fp = none := by
        cases h : lookupMap g fp
        · rfl
        · rw [h] at hs; simp at hs
      simp only [hs, Bool.false_eq_true, if_false]
      rw [nodeDeps_setMap]
      by_cases hx : x = fp
      · subst hx
        simp [nodeDeps, hl, newDepNode]
      · simp [hx]

theorem nodeDependents_ensure (g : Graph) (fp x : String) :
    nodeDependents (if (lookupMap g fp).isSome then g else setMap g fp (newDepNode fp)) x =
      nodeDependents g x := by
  cases hs : (lookupMap g fp).isSome with
  | true => simp [hs]
  | false =>
      have hl : lookupMap g fp = none := by
        cases h : lookupMap g fp
        · rfl
        · rw [h] at hs; simp at hs
      simp only [hs, Bool.false_eq_true, if_false]
      rw [nodeDependents_setMap]
      by_cases hx : x = fp
      · subst hx
        simp [nodeDependents, hl, newDepNode]
      · simp [hx]

theorem hasNode_ensure (g : Graph) (fp x : String) :
    hasNode (if (lookupMap g fp).isSome then g else setMap g fp (newDepNode fp)) x ↔
      x = fp ∨ hasNode g x := by
  cases hs : (lookupMap g fp).isSome with
  | true =>
      simp only [hs, if_true]
      constructor
      · exact Or.inr
      · rintro (h | h)
        · subst h
          exact hs
        · exact h
  | false =>
      simp only [hs, Bool.false_eq_true, if_false]
      rw [hasNode_setMap]

theorem nodupKeys_ensure (g : Graph) (fp : String) (hnd : (mapKeys g).Nodup) :
    (mapKeys (if (lookupMap g fp).isSome then g else setMap g fp (newDepNode fp))).Nodup := by
  cases hs : (lookupMap g fp).isSome with
  | true => simpa [hs] using hnd
  | false =>
      simp only [hs, Bool.false_eq_true, if_false]
      exact nodupKeys_setMap _ _ _ hnd

theorem hasNode_fp_ensure (g : Graph) (fp : String) :
    hasNode (if (lookupMap g fp).isSome then g else setMap g fp (newDepNode fp)) fp := by
  rw [hasNode_ensure]
  exact Or.inl rfl

theorem nodeDeps_UpdateNode (g : Graph) (fp : String) (deps : List String) (x : String) :
    nodeDeps (UpdateNode g fp deps) x = if x = fp then deps else nodeDeps g x := by
  simp only [UpdateNode]
  have hfp : hasNode ((nodeDeps
      (if (lookupMap g fp).isSome = true then g else setMap g fp (newDepNode fp))
        fp).foldl (fun gacc oldDep => removeDependentRelationship gacc oldDep fp)
      (if (lookupMap g fp).isSome = true then g else setMap g fp (newDepNode fp))) fp := by
    rw [hasNode_removeFold]
    exact hasNode_fp_ensure g fp
  obtain ⟨n1, hn1⟩ := Option.isSome_iff_exists.mp hfp
  rw [hn1]
  rw [nodeDeps_addFold, nodeDeps_setMap]
  by_cases hx : x = fp
  · simp [hx]
  · rw [if_neg hx, if_neg hx, nodeDeps_removeFold, nodeDeps_ensure]

theorem mem_nodeDependents_UpdateNode (g : Graph) (fp : String) (deps : List String)
    (x y : String) :
    (y ∈ nodeDependents (UpdateNode g fp deps) x ↔
      (y ∈ nodeDependents g x ∧ ¬ (y = fp ∧ x ∈ nodeDeps g fp)) ∨ (y = fp ∧ x ∈ deps)) := by
  simp only [UpdateNode]
  have hfp : hasNode ((nodeDeps
      (if (lookupMap g fp).isSome = true then g else setMap g fp (newDepNode fp))
        fp).foldl (fun gacc oldDep => removeDependentRelationship gacc oldDep fp)
      (if (lookupMap g fp).isSome = true then g else setMap g fp (newDepNode fp))) fp := by
    rw [hasNode_removeFold]
    exact hasNode_fp_ensure g fp
  obtain ⟨n1, hn1⟩ := Option.isSome_iff_exists.mp hfp
  rw [hn1]
  rw [mem_nodeDependents_addFold, nodeDependents_setMap]
  have hdepsg0 : ∀ z, nodeDeps
      (if (lookupMap g fp).isSome = true then g else setMap g fp (newDepNode fp)) z =
      nodeDeps g z := fun z => nodeDeps_ensure g fp z
  have hn1dpts : n1.dependents = nodeDependents ((nodeDeps
      (if (lookupMap g fp).isSome = true then g else setMap g fp (newDepNode fp))
        fp).foldl (fun gacc oldDep => removeDependentRelationship gacc oldDep fp)
      (if (lookupMap g fp).isSome = true then g else setMap g fp (newDepNode fp))) fp := by
    simp [nodeDependents, hn1]
  by_cases hx : x = fp
  · subst hx
    rw [if_pos rfl, hn1dpts]
    rw [nodeDependents_removeFold, hdepsg0, nodeDependents_ensure]
    by_cases hmem : x ∈ nodeDeps g x
    · rw [if_pos hmem]
      rw [mem_removeFromSlice]
      tauto
    · rw [if_neg hmem]
      tauto
  · rw [if_neg hx]
    rw [nodeDependents_removeFold, hdepsg0, nodeDependents_ensure]
    by_cases hmem : x ∈ nodeDeps g fp
    · rw [if_pos hmem]
      rw [mem_removeFromSlice]
      tauto
    · rw [if_neg hmem]
      tauto

theorem hasNode_UpdateNode (g : Graph) (fp : String) (deps : List String) (x : String) :
    hasNode (UpdateNode g fp deps) x ↔ x = fp ∨ x ∈ deps ∨ hasNode g x := by
  simp only [UpdateNode]
  have hfp : hasNode ((nodeDeps
      (if (lookupMap g fp).isSome = true then g else setMap g fp (newDepNode fp))
        fp).foldl (fun gacc oldDep => removeDependentRelationship gacc oldDep fp)
      (if (lookupMap g fp).isSome = true then g else setMap g fp (newDepNode fp))) fp := by
    rw [hasNode_removeFold]
    exact hasNode_fp_ensure g fp
  obtain ⟨n1, hn1⟩ := Option.isSome_iff_exists.mp hfp
  rw [hn1]
  rw [hasNode_addFold, hasNode_setMap, hasNode_removeFold, hasNode_ensure]
  tauto

theorem nodupKeys_UpdateNode (g : Graph) (fp : String) (deps : List String)
    (hnd : (mapKeys g).Nodup) : (mapKeys (UpdateNode g fp deps)).Nodup := by
  simp only [UpdateNode]
  have hfp : hasNode ((nodeDeps
      (if (lookupMap g fp).isSome = true then g else setMap g fp (newDepNode fp))
        fp).foldl (fun gacc oldDep => removeDependentRelationship gacc oldDep fp)
      (if (lookupMap g fp).isSome = true then g else setMap g fp (newDepNode fp))) fp := by
    rw [hasNode_removeFold]
    exact hasNode_fp_ensure g fp
  obtain ⟨n1, hn1⟩ := Option.isSome_iff_exists.mp hfp
  rw [hn1]
  exact nodupKeys_addFold _ _ _ (nodupKeys_setMap _ _ _
    (nodupKeys_removeFold _ _ _ (nodupKeys_ensure g fp hnd)))

/-- Transpose invariant of the dependency graph: node a lists b among its
dependencies exactly when b lists a among its dependents, and every listed
path has a node. -/
def TransposeInv (g : Graph) : Prop :=
  (∀ a b, b ∈ nodeDeps g a → hasNode g b ∧ a ∈ nodeDependents g b) ∧
  (∀ a b, b ∈ nodeDependents g a → hasNode g b ∧ a ∈ nodeDeps g b)

/-- Full structural invariant: distinct map keys plus the transpose
invariant. -/
def GraphInv (g : Graph) : Prop := (mapKeys g).Nodup ∧ TransposeInv g

theorem transposeInv_UpdateNode (g : Graph) (fp : String) (deps : List String)
    (h : TransposeInv g) : TransposeInv (UpdateNode g fp deps) := by
  obtain ⟨h1, h2⟩ := h
  constructor
  · intro a b hb
    rw [nodeDeps_UpdateNode] at hb
    by_cases ha : a = fp
    · rw [if_pos ha] at hb
      subst ha
      constructor
      · rw [hasNode_UpdateNode]
        exact Or.inr (Or.inl hb)
      · rw [mem_nodeDependents_UpdateNode]
        exact Or.inr ⟨rfl, hb⟩
    · rw [if_neg ha] at hb
      obtain ⟨hbn, hba⟩ := h1 a b hb
      constructor
      · rw [hasNode_UpdateNode]
        exact Or.inr (Or.inr hbn)
      · rw [mem_nodeDependents_UpdateNode]
        exact Or.inl ⟨hba, fun hc => ha hc.1⟩
  · intro a b hb
    rw [mem_nodeDependents_UpdateNode] at hb
    rcases hb with ⟨hbg, hnot⟩ | ⟨hbfp, hadeps⟩
    · obtain ⟨hbn, hba⟩ := h2 a b hbg
      constructor
      · rw [hasNode_UpdateNode]
        exact Or.inr (Or.inr hbn)
      · rw [nodeDeps_UpdateNode]
        by_cases hbfp : b = fp
        · subst hbfp
          exact absurd ⟨rfl, hba⟩ hnot
        · rw [if_neg hbfp]
          exact hba
    · subst hbfp
      constructor
      · rw [hasNode_UpdateNode]
        exact Or.inl rfl
      · rw [nodeDeps_UpdateNode, if_pos rfl]
        exact hadeps

theorem graphInv_UpdateNode (g : Graph) (fp : String) (deps : List String)
    (h : GraphInv g) : GraphInv (UpdateNode g fp deps) :=
  ⟨nodupKeys_UpdateNode g fp deps h.1, transposeInv_UpdateNode g fp deps h.2⟩

theorem nodeDeps_eraseKey_ne (g : Graph) (k x : String) (hx : x ≠ k) :
    nodeDeps (eraseKey g k) x = nodeDeps g x := by
  unfold nodeDeps
  rw [lookupMap_eraseKey_ne _ _ _ hx]

theorem nodeDependents_eraseKey_ne (g : Graph) (k x : String) (hx : x ≠ k) :
    nodeDependents (eraseKey g k) x = nodeDependents g x := by
  unfold nodeDependents
  rw [lookupMap_eraseKey_ne _ _ _ hx]

theorem hasNode_eraseKey_ne (g : Graph) (k x : String) (hx : x ≠ k) :
    (hasNode (eraseKey g k) x ↔ hasNode g x) := by
  unfold hasNode
  rw [lookupMap_eraseKey_ne _ _ _ hx]

theorem lookup_RemoveNode_self (g : Graph) (fp : String) :
    lookupMap (RemoveNode g fp) fp = none := by
  cases hl : lookupMap g fp with
  | none => simp [RemoveNode, hl]
  | some node =>
      simp only [RemoveNode, hl]
      exact lookupMap_eraseKey_self _ _

theorem nodeDeps_RemoveNode_of_some (g : Graph) (fp : String) (node : DependencyNode)
    (hl : lookupMap g fp = some node) (x : String) (hx : ¬ x = fp) :
    nodeDeps (RemoveNode g fp) x =
      if x ∈ nodeDependents g fp then removeFromSlice (nodeDeps g x) fp
      else nodeDeps g x := by
  simp only [RemoveNode, hl]
  rw [nodeDeps_eraseKey_ne _ _ _ hx, nodeDeps_removeDepsFold, nodeDeps_removeFold]
  have hdpts : (x ∈ nodeDependents
      (node.dependencies.foldl (fun gacc dep => removeDependentRelationship gacc dep fp) g)
      fp) ↔ x ∈ nodeDependents g fp := by
    rw [nodeDependents_removeFold]
    by_cases hm : fp ∈ node.dependencies
    · rw [if_pos hm, mem_removeFromSlice]
      exact ⟨fun h => h.1, fun h => ⟨h, hx⟩⟩
    · rw [if_neg hm]
  by_cases hmem : x ∈ nodeDependents g fp
  · rw [if_pos (hdpts.mpr hmem), if_pos hmem]
  · rw [if_neg (fun hc => hmem (hdpts.mp hc)), if_neg hmem]

theorem nodeDependents_RemoveNode_of_some (g : Graph) (fp : String) (node : DependencyNode)
    (hl : lookupMap g fp = some node) (x : String) (hx : ¬ x = fp) :
    nodeDependents (RemoveNode g fp) x =
      if x ∈ node.dependencies then removeFromSlice (nodeDependents g x) fp
      else nodeDependents g x := by
  simp only [RemoveNode, hl]
  rw [nodeDependents_eraseKey_ne _ _ _ hx, nodeDependents_removeDepsFold,
    nodeDependents_removeFold]

theorem hasNode_RemoveNode_of_some (g : Graph) (fp : String) (node : DependencyNode)
    (hl : lookupMap g fp = some node) (x : String) (hx : ¬ x = fp) :
    (hasNode (RemoveNode g fp) x ↔ hasNode g x) := by
  simp only [RemoveNode, hl]
  rw [hasNode_eraseKey_ne _ _ _ hx, hasNode_removeDepsFold, hasNode_removeFold]

theorem nodupKeys_RemoveNode (g : Graph) (fp : String) (hnd : (mapKeys g).Nodup) :
    (mapKeys (RemoveNode g fp)).Nodup := by
  cases hl : lookupMap g fp with
  | none => simpa [RemoveNode, hl] using hnd
  | some node =>
      simp only [RemoveNode, hl]
      exact nodupKeys_eraseKey _ _ (nodupKeys_removeDepsFold _ _ _
        (nodupKeys_removeFold _ _ _ hnd))

/-- After RemoveNode, no remaining node mentions the removed path in either
list (this needs the transpose invariant on the input graph). -/
theorem RemoveNode_purges (g : Graph) (fp : String) (h : TransposeInv g) :
    ∀ x n, lookupMap (RemoveNode g fp) x = some n →
      fp ∉ n.dependencies ∧ fp ∉ n.dependents := by
  intro x n hx
  have hxfp : ¬ x = fp := by
    intro he
    subst he
    rw [lookup_RemoveNode_self] at hx
    cases hx
  have hdeps_eq : n.dependencies = nodeDeps (RemoveNode g fp) x := by
    simp [nodeDeps, hx]
  have hdpts_eq : n.dependents = nodeDependents (RemoveNode g fp) x := by
    simp [nodeDependents, hx]
  cases hgl : lookupMap g fp with
  | none =>
      have hR : RemoveNode g fp = g := by simp [RemoveNode, hgl]
      have hfn : ¬ hasNode g fp := by
        simp [hasNode, hgl]
      constructor
      · intro hmem
        have hmem' : fp ∈ nodeDeps g x := by
          rw [hdeps_eq, hR] at hmem
          exact hmem
        exact hfn (h.1 x fp hmem').1
      · intro hmem
        have hmem' : fp ∈ nodeDependents g x := by
          rw [hdpts_eq, hR] at hmem
          exact hmem
        exact hfn (h.2 x fp hmem').1
  | some node =>
      constructor
      · intro hmem
        rw [hdeps_eq, nodeDeps_RemoveNode_of_some g fp node hgl x hxfp] at hmem
        by_cases hc : x ∈ nodeDependents g fp
        · rw [if_pos hc, mem_removeFromSlice] at hmem
          exact hmem.2 rfl
        · rw [if_neg hc] at hmem
          exact hc (h.1 x fp hmem).2
      · intro hmem
        rw [hdpts_eq, nodeDependents_RemoveNode_of_some g fp node hgl x hxfp] at hmem
        by_cases hc : x ∈ node.dependencies
        · rw [if_pos hc, mem_removeFromSlice] at hmem
          exact hmem.2 rfl
        · rw [if_neg hc] at hmem
          apply hc
          have := (h.2 x fp hmem).2
          simpa [nodeDeps, hgl] using this

theorem transposeInv_RemoveNode (g : Graph) (fp : String) (h : TransposeInv g) :
    TransposeInv (RemoveNode g fp) := by
  cases hgl : lookupMap g fp with
  | none =>
      have hR : RemoveNode g fp = g := by simp [RemoveNode, hgl]
      rw [hR]
      exact h
  | some node =>
      have hfpdeps : nodeDeps g fp = node.dependencies := by
        simp [nodeDeps, hgl]
      constructor
      · intro a b hb
        have hafp : ¬ a = fp := by
          intro he
          rw [he] at hb
          have hnil : nodeDeps (RemoveNode g fp) fp = [] := by
            simp [nodeDeps, lookup_RemoveNode_self]
          rw [hnil] at hb
          cases hb
        rw [nodeDeps_RemoveNode_of_some g fp node hgl a hafp] at hb
        have hb' : b ∈ nodeDeps g a ∧ ¬ b = fp := by
          by_cases hc : a ∈ nodeDependents g fp
          · rw [if_pos hc, mem_removeFromSlice] at hb
            exact hb
          · rw [if_neg hc] at hb
            refine ⟨hb, ?_⟩
            intro he
            subst he
            exact hc (h.1 a b hb).2
        obtain ⟨hbg, hbfp⟩ := hb'
        obtain ⟨hbn, hba⟩ := h.1 a b hbg
        constructor
        · rw [hasNode_RemoveNode_of_some g fp node hgl b hbfp]
          exact hbn
        · rw [nodeDependents_RemoveNode_of_some g fp node hgl b hbfp]
          by_cases hc : b ∈ node.dependencies
          · rw [if_pos hc, mem_removeFromSlice]
            exact ⟨hba, hafp⟩
          · rw [if_neg hc]
            exact hba
      · intro a b hb
        have hafp : ¬ a = fp := by
          intro he
          rw [he] at hb
          have hnil : nodeDependents (RemoveNode g fp) fp = [] := by
            simp [nodeDependents, lookup_RemoveNode_self]
          rw [hnil] at hb
          cases hb
        rw [nodeDependents_RemoveNode_of_some g fp node hgl a hafp] at hb
        have hb' : b ∈ nodeDependents g a ∧ ¬ b = fp := by
          by_cases hc : a ∈ node.dependencies
          · rw [if_pos hc, mem_removeFromSlice] at hb
            exact hb
          · rw [if_neg hc] at hb
            refine ⟨hb, ?_⟩
            intro he
            apply hc
            rw [← hfpdeps]
            rw [he] at hb
            exact (h.2 a fp hb).2
        obtain ⟨hbg, hbfp⟩ := hb'
        obtain ⟨hbn, hba⟩ := h.2 a b hbg
        constructor
        · rw [hasNode_RemoveNode_of_some g fp node hgl b hbfp]
          exact hbn
        · rw [nodeDeps_RemoveNode_of_some g fp node hgl b hbfp]
          by_cases hc : b ∈ nodeDependents g fp
          · rw [if_pos hc, mem_removeFromSlice]
            exact ⟨hba, hafp⟩
          · rw [if_neg hc]
            exact hba

theorem graphInv_RemoveNode (g : Graph) (fp : String) (h : GraphInv g) :
    GraphInv (RemoveNode g fp) :=
  ⟨nodupKeys_RemoveNode g fp h.1, transposeInv_RemoveNode g fp h.2⟩

/-! ### BuildGraph establishes the transpose invariant -/

theorem lookupMap_append {κ : Type u} {α : Type v} [DecidableEq κ]
    (l1 l2 : List (κ × α)) (x : κ) :
    lookupMap (l1 ++ l2) x =
      match lookupMap l1 x with
      | some v => some v
      | none => lookupMap l2 x := by
  induction l1 with
  | nil => simp [lookupMap]
  | cons kv rest ih =>
      obtain ⟨k, v⟩ := kv
      by_cases h : x = k <;> simp [lookupMap, h, ih]

theorem lookup_buildPassOne (pf : List (String × ParsedFile)) :
    ∀ (acc : Graph) (x : String),
    lookupMap (pf.foldl (fun gacc kv => setMap gacc kv.1 (newDepNode kv.1)) acc) x =
      if x ∈ mapKeys pf then some (newDepNode x) else lookupMap acc x := by
  induction pf with
  | nil => intro acc x; simp [mapKeys]
  | cons kv rest ih =>
      intro acc x
      simp only [List.foldl]
      rw [ih]
      by_cases hr : x ∈ mapKeys rest
      · have hr' := hr
        simp only [mapKeys] at hr'
        simp [mapKeys, hr, hr']
      · by_cases hk : x = kv.1
        · subst hk
          simp [mapKeys, hr, lookupMap_setMap_self]
        · rw [lookupMap_setMap_ne _ _ _ _ hk]
          simp only [mapKeys, List.map, List.mem_cons] at hr ⊢
          simp [hr, hk]

theorem nodupKeys_buildPassOne (pf : List (String × ParsedFile)) :
    ∀ (acc : Graph), (mapKeys acc).Nodup →
    (mapKeys (pf.foldl (fun gacc kv => setMap gacc kv.1 (newDepNode kv.1)) acc)).Nodup := by
  induction pf with
  | nil => intro acc h; exact h
  | cons kv rest ih =>
      intro acc h
      simp only [List.foldl]
      exact ih _ (nodupKeys_setMap _ _ _ h)

/-- Intermediate state of BuildGraph's second pass after a prefix of the
parsed files has been wired. -/
def BuildMid (processed pfAll : List (String × ParsedFile)) (g : Graph) : Prop :=
  (mapKeys g).Nodup ∧
  (∀ x, nodeDeps g x =
    (match lookupMap processed x with
     | some parsed => localImportPaths parsed
     | none => [])) ∧
  (∀ x y, y ∈ nodeDependents g x ↔
    ∃ parsed, lookupMap processed y = some parsed ∧ x ∈ localImportPaths parsed) ∧
  (∀ x, hasNode g x ↔ x ∈ mapKeys pfAll ∨ ∃ kv ∈ processed, x ∈ localImportPaths kv.2)

theorem buildMid_init (pfAll : List (String × ParsedFile)) :
    BuildMid [] pfAll
      (pfAll.foldl (fun gacc kv => setMap gacc kv.1 (newDepNode kv.1)) []) := by
  refine ⟨nodupKeys_buildPassOne pfAll [] (by simp [mapKeys]), ?_, ?_, ?_⟩
  · intro x
    simp only [nodeDeps, lookup_buildPassOne pfAll [] x, lookupMap]
    by_cases h : x ∈ mapKeys pfAll <;> simp [h, newDepNode]
  · intro x y
    simp only [nodeDependents, lookup_buildPassOne pfAll [] x]
    constructor
    · intro hy
      by_cases h : x ∈ mapKeys pfAll
      · rw [if_pos h] at hy
        exact absurd hy (List.not_mem_nil y)
      · rw [if_neg h] at hy
        exact absurd hy (List.not_mem_nil y)
    · rintro ⟨parsed, hp, _⟩
      exact Option.noConfusion hp
  · intro x
    simp only [hasNode, lookup_buildPassOne pfAll [] x, lookupMap]
    by_cases h : x ∈ mapKeys pfAll <;> simp [h]

theorem buildMid_step (pfAll processed : List (String × ParsedFile)) (g : Graph)
    (fp : String) (parsed : ParsedFile)
    (hmem : fp ∈ mapKeys pfAll) (hnone : lookupMap processed fp = none)
    (h : BuildMid processed pfAll g) :
    BuildMid (processed ++ [(fp, parsed)]) pfAll (buildGraphStep g (fp, parsed)) := by
  obtain ⟨hnd, hdeps, hdpts, hhas⟩ := h
  have hlookup_new : ∀ x, lookupMap (processed ++ [(fp, parsed)]) x =
      match lookupMap processed x with
      | some p => some p
      | none => if x = fp then some parsed else none := by
    intro x
    rw [lookupMap_append]
    cases lookupMap processed x <;> simp [lookupMap]
  cases hda : parsed.dependencies with
  | none =>
      have hstep : buildGraphStep g (fp, parsed) = g := by
        simp [buildGraphStep, hda]
      have himp : localImportPaths parsed = [] := by
        simp [localImportPaths, hda]
      rw [hstep]
      refine ⟨hnd, ?_, ?_, ?_⟩
      · intro x
        rw [hdeps x, hlookup_new x]
        cases hpx : lookupMap processed x with
        | some p => simp
        | none =>
            by_cases hx : x = fp
            · subst hx
              simp [himp]
            · simp [hx]
      · intro x y
        rw [hdpts x y]
        constructor
        · rintro ⟨p, hp, hip⟩
          refine ⟨p, ?_, hip⟩
          rw [hlookup_new y, hp]
        · rintro ⟨p, hp, hip⟩
          rw [hlookup_new y] at hp
          cases hpy : lookupMap processed y with
          | some p' =>
              rw [hpy] at hp
              simp only [Option.some.injEq] at hp
              refine ⟨p', rfl, ?_⟩
              rw [hp]
              exact hip
          | none =>
              rw [hpy] at hp
              by_cases hy : y = fp
              · simp [hy] at hp
                rw [← hp] at hip
                rw [himp] at hip
                cases hip
              · simp [hy] at hp
      · intro x
        rw [hhas x]
        constructor
        · rintro (h1 | ⟨kv, hkv, hx⟩)
          · exact Or.inl h1
          · exact Or.inr ⟨kv, List.mem_append_left _ hkv, hx⟩
        · rintro (h1 | ⟨kv, hkv, hx⟩)
          · exact Or.inl h1
          · rcases List.mem_append.mp hkv with h2 | h2
            · exact Or.inr ⟨kv, h2, hx⟩
            · simp at h2
              rw [h2] at hx
              simp only at hx
              rw [himp] at hx
              cases hx
  | some da =>
      have himp : localImportPaths parsed = da.localImports.map (·.importPath) := by
        simp [localImportPaths, hda]
      have hgbfp : hasNode ((da.localImports.map (·.importPath)).foldl
          (fun gi ip => addDependentRelationship gi ip fp) g) fp := by
        rw [hasNode_addFold]
        exact Or.inr ((hhas fp).mpr (Or.inl hmem))
      obtain ⟨n1, hn1⟩ := Option.isSome_iff_exists.mp hgbfp
      have hstep : buildGraphStep g (fp, parsed) =
          setMap ((da.localImports.map (·.importPath)).foldl
            (fun gi ip => addDependentRelationship gi ip fp) g) fp
            { n1 with dependencies := da.localImports.map (·.importPath) } := by
        simp only [buildGraphStep, hda]
        rw [hn1]
      rw [hstep]
      have hn1dpts : n1.dependents = nodeDependents
          ((da.localImports.map (·.importPath)).foldl
            (fun gi ip => addDependentRelationship gi ip fp) g) fp := by
        simp [nodeDependents, hn1]
      refine ⟨nodupKeys_setMap _ _ _ (nodupKeys_addFold _ _ _ hnd), ?_, ?_, ?_⟩
      · intro x
        rw [nodeDeps_setMap, hlookup_new x]
        by_cases hx : x = fp
        · subst hx
          rw [if_pos rfl, hnone]
          simp [himp]
        · rw [if_neg hx, nodeDeps_addFold, hdeps x]
          cases hpx : lookupMap processed x with
          | some p => simp
          | none => simp [hx]
      · intro x y
        rw [nodeDependents_setMap]
        have hmem_set : y ∈ (if x = fp then n1.dependents else nodeDependents
            ((da.localImports.map (·.importPath)).foldl
              (fun gi ip => addDependentRelationship gi ip fp) g) x) ↔
            y ∈ nodeDependents g x ∨ (y = fp ∧ x ∈ da.localImports.map (·.importPath)) := by
          by_cases hx : x = fp
          · rw [if_pos hx, hn1dpts, hx]
            rw [mem_nodeDependents_addFold]
          · rw [if_neg hx]
            rw [mem_nodeDependents_addFold]
        rw [hmem_set, hdpts x y]
        constructor
        · rintro (⟨p, hp, hip⟩ | ⟨hy, hx⟩)
          · refine ⟨p, ?_, hip⟩
            rw [hlookup_new y, hp]
          · refine ⟨parsed, ?_, ?_⟩
            · rw [hlookup_new y]
              rw [hy, hnone]
              simp
            · rw [himp]
              exact hx
        · rintro ⟨p, hp, hip⟩
          rw [hlookup_new y] at hp
          cases hpy : lookupMap processed y with
          | some p' =>
              rw [hpy] at hp
              simp only [Option.some.injEq] at hp
              refine Or.inl ⟨p', rfl, ?_⟩
              rw [hp]
              exact hip
          | none =>
              rw [hpy] at hp
              by_cases hy : y = fp
              · simp [hy] at hp
                rw [← hp, himp] at hip
                exact Or.inr ⟨hy, hip⟩
              · simp [hy] at hp
      · intro x
        rw [hasNode_setMap, hasNode_addFold, hhas x]
        constructor
        · rintro (h1 | h1 | h2 | h3)
          · exact Or.inl (h1 ▸ hmem)
          · refine Or.inr ⟨(fp, parsed), List.mem_append_right _ (by simp), ?_⟩
            rw [himp]
            exact h1
          · exact Or.inl h2
          · obtain ⟨kv, hkv, hx⟩ := h3
            exact Or.inr ⟨kv, List.mem_append_left _ hkv, hx⟩
        · rintro (h1 | ⟨kv, hkv, hx⟩)
          · exact Or.inr (Or.inr (Or.inl h1))
          · rcases List.mem_append.mp hkv with h2 | h2
            · exact Or.inr (Or.inr (Or.inr ⟨kv, h2, hx⟩))
            · simp at h2
              rw [h2] at hx
              simp only at hx
              rw [himp] at hx
              exact Or.inr (Or.inl hx)

theorem mapKeys_append {κ : Type u} {α : Type v} (l1 l2 : List (κ × α)) :
    mapKeys (l1 ++ l2) = mapKeys l1 ++ mapKeys l2 := by
  simp [mapKeys]

theorem buildMid_fold (pfAll : List (String × ParsedFile))
    (hnd : (mapKeys pfAll).Nodup) :
    ∀ (todo processed : List (String × ParsedFile)) (g : Graph),
    pfAll = processed ++ todo → BuildMid processed pfAll g →
    BuildMid pfAll pfAll (todo.foldl buildGraphStep g) := by
  intro todo
  induction todo with
  | nil =>
      intro processed g heq h
      rw [List.append_nil] at heq
      subst heq
      exact h
  | cons kv rest ih =>
      intro processed g heq h
      obtain ⟨fp, parsed⟩ := kv
      simp only [List.foldl]
      have hmemAll : fp ∈ mapKeys pfAll := by
        rw [heq, mapKeys_append]
        simp [mapKeys]
      have hfpnotin : fp ∉ mapKeys processed := by
        have hnd' := hnd
        rw [heq, mapKeys_append] at hnd'
        have hdisj := (List.nodup_append.mp hnd').2.2
        intro hc
        exact hdisj hc (by simp [mapKeys])
      have hnone : lookupMap processed fp = none :=
        (lookupMap_eq_none_iff_not_mem_keys _ _).mpr hfpnotin
      have hstep := buildMid_step pfAll processed g fp parsed hmemAll hnone h
      exact ih (processed ++ [(fp, parsed)]) _ (by rw [heq]; simp) hstep

theorem graphInv_BuildGraph (pf : List (String × ParsedFile))
    (hnd : (mapKeys pf).Nodup) : GraphInv (BuildGraph pf) := by
  have hmid : BuildMid pf pf (BuildGraph pf) := by
    simp only [BuildGraph]
    exact buildMid_fold pf hnd pf [] _ (by simp) (buildMid_init pf)
  obtain ⟨hndk, hdeps, hdpts, hhas⟩ := hmid
  refine ⟨hndk, ?_, ?_⟩
  · intro a b hb
    rw [hdeps a] at hb
    cases hpa : lookupMap pf a with
    | none =>
        rw [hpa] at hb
        exact absurd hb (List.not_mem_nil b)
    | some parsed =>
        rw [hpa] at hb
        have hb' : b ∈ localImportPaths parsed := hb
        constructor
        · rw [hhas b]
          exact Or.inr ⟨(a, parsed), mem_of_lookupMap_eq_some hpa, hb'⟩
        · rw [hdpts b a]
          exact ⟨parsed, hpa, hb'⟩
  · intro a b hb
    rw [hdpts a b] at hb
    obtain ⟨p, hpb, hip⟩ := hb
    constructor
    · rw [hhas b]
      refine Or.inl ?_
      rw [← lookupMap_isSome_iff_mem_keys, hpb]
      rfl
    · rw [hdeps b, hpb]
      exact hip

/-! ### Invariant maintenance along operation sequences (claim C4) -/

/-- One public mutating operation of the dependency graph. -/
inductive GraphOp where
  | build (parsedFiles : List (String × ParsedFile))
  | update (filePath : String) (dependencies : List String)
  | remove (filePath : String)

/-- Apply one operation. -/
def applyGraphOp (g : Graph) : GraphOp → Graph
  | .build pf => BuildGraph pf
  | .update p deps => UpdateNode g p deps
  | .remove p => RemoveNode g p

/-- Apply a sequence of operations, starting from a graph. -/
def applyGraphOps (g : Graph) (ops : List GraphOp) : Graph := ops.foldl applyGraphOp g

/-- Well-formedness of one operation's input: BuildGraph receives a Go map,
whose keys are distinct. -/
def opKeysNodup : GraphOp → Prop
  | .build pf => (mapKeys pf).Nodup
  | .update _ _ => True
  | .remove _ => True

theorem graphInv_empty : GraphInv ([] : Graph) := by
  refine ⟨by simp [mapKeys], ?_, ?_⟩
  · intro a b hb
    exact absurd hb (List.not_mem_nil b)
  · intro a b hb
    exact absurd hb (List.not_mem_nil b)

theorem graphInv_applyGraphOp (g : Graph) (op : GraphOp) (hop : opKeysNodup op)
    (h : GraphInv g) : GraphInv (applyGraphOp g op) := by
  cases op with
  | build pf => exact graphInv_BuildGraph pf hop
  | update p deps => exact graphInv_UpdateNode g p deps h
  | remove p => exact graphInv_RemoveNode g p h

theorem graphInv_applyGraphOps (ops : List GraphOp) :
    ∀ (g : Graph), (∀ op ∈ ops, opKeysNodup op) → GraphInv g →
    GraphInv (applyGraphOps g ops) := by
  induction ops with
  | nil => intro g _ h; exact h
  | cons op rest ih =>
      intro g hops h
      simp only [applyGraphOps, List.foldl]
      exact ih _ (fun o ho => hops o (List.mem_cons_of_mem _ ho))
        (graphInv_applyGraphOp g op (hops op (List.mem_cons_self _ _)) h)

/-- Decidable, entry-bounded form of the graph invariant, used to check
concrete graphs. -/
def GraphInvB (g : Graph) : Prop :=
  (mapKeys g).Nodup ∧
  ∀ kv ∈ g, (∀ b ∈ kv.2.dependencies, hasNode g b ∧ kv.1 ∈ nodeDependents g b) ∧
            (∀ b ∈ kv.2.dependents, hasNode g b ∧ kv.1 ∈ nodeDeps g b)

instance (g : Graph) : Decidable (GraphInvB g) := by
  unfold GraphInvB
  infer_instance

theorem graphInv_of_graphInvB (g : Graph) (h : GraphInvB g) : GraphInv g := by
  refine ⟨h.1, ?_, ?_⟩
  · intro a b hb
    unfold nodeDeps at hb
    cases hla : lookupMap g a with
    | none =>
        rw [hla] at hb
        exact absurd hb (List.not_mem_nil b)
    | some n =>
        rw [hla] at hb
        exact (h.2 (a, n) (mem_of_lookupMap_eq_some hla)).1 b hb
  · intro a b hb
    unfold nodeDependents at hb
    cases hla : lookupMap g a with
    | none =>
        rw [hla] at hb
        exact absurd hb (List.not_mem_nil b)
    | some n =>
        rw [hla] at hb
        exact (h.2 (a, n) (mem_of_lookupMap_eq_some hla)).2 b hb

/-- C4: starting from a fresh graph, every sequence of BuildGraph,
UpdateNode and RemoveNode operations maintains the transpose invariant
(b is among a's dependencies iff a is among b's dependents, with all
referenced nodes present), and on any graph satisfying the invariant,
RemoveNode leaves no remaining node that lists the removed path in either
its dependency or its dependent list. -/
theorem C4_transpose_invariant_maintained (ops : List GraphOp) (g : Graph) (f : String)
    (hops : ∀ op ∈ ops, opKeysNodup op) (hg : GraphInv g) :
    GraphInv (applyGraphOps [] ops) ∧
    (∀ p n, lookupMap (RemoveNode g f) p = some n →
      f ∉ n.dependencies ∧ f ∉ n.dependents) :=
  ⟨graphInv_applyGraphOps ops [] hops graphInv_empty,
    fun p n hp => RemoveNode_purges g f hg.2 p n hp⟩

/-- Witness for C4 at concrete inputs: one UpdateNode op from empty, and a
removal on a concrete two-node graph satisfying the invariant. -/
theorem C4_witness :
    GraphInv (applyGraphOps [] [GraphOp.update "b" ["a"]]) ∧
    (∀ p n, lookupMap (RemoveNode exampleGraphA "a") p = some n →
      "a" ∉ n.dependencies ∧ "a" ∉ n.dependents) :=
  C4_transpose_invariant_maintained [GraphOp.update "b" ["a"]] exampleGraphA "a"
    (fun op hop => by
      rw [List.mem_singleton.mp hop]
      trivial)
    (graphInv_of_graphInvB exampleGraphA (by decide))

/-! ### Topological order (GetTopologicalOrder, Kahn's algorithm) -/

/-- Initial in-degree map of Kahn's algorithm: dependency count per node,
zero for unknown keys (the Go map's zero value). -/
def kahnInitialInDegree (g : Graph) : String → Int := fun x =>
  match lookupMap g x with
  | some n => (n.dependencies.length : Int)
  | none => 0

/-- Initial queue of Kahn's algorithm: the keys whose node has no
dependencies, in map-iteration order. -/
def kahnInitialQueue (g : Graph) : List String :=
  (g.filter (fun kv => decide (kv.2.dependencies.length = 0))).map (·.1)

/-- The inner loop of one Kahn iteration: decrement each dependent's
in-degree and enqueue those that reach zero. -/
def processDependents (inDeg : String → Int) (queue : List String) :
    List String → ((String → Int) × List String)
  | [] => (inDeg, queue)
  | d :: rest =>
      let v := inDeg d - 1
      processDependents (fun x => if x = d then v else inDeg x)
        (if v = 0 then queue ++ [d] else queue) rest

/-- The queue-processing loop of Kahn's algorithm, fuelled. -/
def kahnLoop (g : Graph) : Nat → List String → List String → (String → Int) → List String
  | 0, _, result, _ => result
  | fuel + 1, queue, result, inDeg =>
      match queue with
      | [] => result
      | current :: rest =>
          match lookupMap g current with
          | none => kahnLoop g fuel rest (result ++ [current]) inDeg
          | some node =>
              let pd := processDependents inDeg rest node.dependents
              kahnLoop g fuel pd.2 (result ++ [current]) pd.1

/-- Mirrors DependencyGraph.GetTopologicalOrder: Kahn's algorithm; if the
result is shorter than the node count the graph has a cycle and the call
fails. -/
def GetTopologicalOrder (g : Graph) : Except String (List String) :=
  let result := kahnLoop g (g.length + 1) (kahnInitialQueue g) [] (kahnInitialInDegree g)
  if result.length = g.length then Except.ok result
  else Except.error "dependency graph contains cycles"

/-- Well-formed graph: transpose invariant plus duplicate-free adjacency
lists. -/
def GraphWF (g : Graph) : Prop :=
  GraphInv g ∧ ∀ kv ∈ g, kv.2.dependencies.Nodup ∧ kv.2.dependents.Nodup

theorem wf_nodeDeps_nodup {g : Graph} (h : GraphWF g) (x : String) :
    (nodeDeps g x).Nodup := by
  unfold nodeDeps
  cases hl : lookupMap g x with
  | none => simp
  | some n => exact (h.2 (x, n) (mem_of_lookupMap_eq_some hl)).1

theorem wf_nodeDependents_nodup {g : Graph} (h : GraphWF g) (x : String) :
    (nodeDependents g x).Nodup := by
  unfold nodeDependents
  cases hl : lookupMap g x with
  | none => simp
  | some n => exact (h.2 (x, n) (mem_of_lookupMap_eq_some hl)).2

theorem wf_transpose {g : Graph} (h : GraphWF g) (a b : String) :
    b ∈ nodeDeps g a ↔ a ∈ nodeDependents g b :=
  ⟨fun hb => (h.1.2.1 a b hb).2, fun hb => (h.1.2.2 b a hb).2⟩

theorem wf_deps_hasNode {g : Graph} (h : GraphWF g) {a b : String}
    (hb : b ∈ nodeDeps g a) : hasNode g b := (h.1.2.1 a b hb).1

theorem wf_dependents_hasNode {g : Graph} (h : GraphWF g) {a b : String}
    (hb : b ∈ nodeDependents g a) : hasNode g b := (h.1.2.2 a b hb).1

theorem hasNode_iff_mem_keys (g : Graph) (x : String) :
    hasNode g x ↔ x ∈ mapKeys g := lookupMap_isSome_iff_mem_keys g x

theorem processDependents_inDeg (ds : List String) (hnd : ds.Nodup) :
    ∀ (inDeg : String → Int) (queue : List String) (x : String),
    (processDependents inDeg queue ds).1 x = if x ∈ ds then inDeg x - 1 else inDeg x := by
  induction ds with
  | nil => intro inDeg queue x; simp [processDependents]
  | cons d rest ih =>
      intro inDeg queue x
      simp only [processDependents]
      obtain ⟨hd, hrest⟩ := List.nodup_cons.mp hnd
      rw [ih hrest]
      by_cases hxr : x ∈ rest
      · have hxd : ¬ x = d := fun he => hd (he ▸ hxr)
        simp [hxr, hxd, List.mem_cons]
      · by_cases hxd : x = d
        · subst hxd
          simp [hxr]
        · simp [hxr, hxd, List.mem_cons]

theorem processDependents_queue (ds : List String) (hnd : ds.Nodup) :
    ∀ (inDeg : String → Int) (queue : List String),
    (processDependents inDeg queue ds).2 =
      queue ++ ds.filter (fun d => decide (inDeg d - 1 = 0)) := by
  induction ds with
  | nil => intro inDeg queue; simp [processDependents]
  | cons d rest ih =>
      intro inDeg queue
      simp only [processDependents]
      obtain ⟨hd, hrest⟩ := List.nodup_cons.mp hnd
      rw [ih hrest]
      have hcong : rest.filter (fun d' => decide ((if d' = d then inDeg d - 1 else inDeg d') - 1 = 0)) =
          rest.filter (fun d' => decide (inDeg d' - 1 = 0)) := by
        apply List.filter_congr
        intro x hx
        have hxd : ¬ x = d := fun he => hd (he ▸ hx)
        simp [hxd]
      rw [hcong]
      by_cases hv : inDeg d - 1 = 0
      · simp only [hv, ite_true, List.filter_cons, decide_eq_true_eq]
        simp [hv, List.append_assoc]
      · simp only [hv, ite_false, List.filter_cons, decide_eq_true_eq]

/-- Order-correctness of a produced order: every node's dependencies occur
strictly earlier in the list. -/
def topoRespects (g : Graph) (order : List String) : Prop :=
  ∀ l₁ x l₂, order = l₁ ++ x :: l₂ → ∀ y ∈ nodeDeps g x, y ∈ l₁

theorem topoRespects_nil (g : Graph) : topoRespects g [] := by
  intro l₁ x l₂ h
  cases l₁ <;> simp at h

theorem eq_singleton_of_all_eq {l : List String} {c : String} (hnd : l.Nodup)
    (hc : c ∈ l) (hall : ∀ d ∈ l, d = c) : l = [c] := by
  cases l with
  | nil => cases hc
  | cons a t =>
      have ha : a = c := hall a (List.mem_cons_self _ _)
      subst ha
      cases t with
      | nil => rfl
      | cons b t' =>
          have hb : b = a := hall b (List.mem_cons_of_mem _ (List.mem_cons_self _ _))
          subst hb
          exact absurd (List.mem_cons_self _ _) (List.nodup_cons.mp hnd).1

theorem mem_split_of_append_singleton {l₁ l₂ result : List String} {x c : String}
    (h : result ++ [c] = l₁ ++ x :: l₂) :
    (l₂ = [] ∧ l₁ = result ∧ x = c) ∨ (∃ l₂', l₂ = l₂' ++ [c] ∧ result = l₁ ++ x :: l₂') := by
  rcases List.eq_nil_or_concat l₂ with h2 | ⟨l₂', a, h2⟩
  · subst h2
    have hinj := List.append_inj' h rfl
    refine Or.inl ⟨rfl, hinj.1.symm, ?_⟩
    have h3 := hinj.2
    simp only [List.cons.injEq, and_true] at h3
    exact h3.symm
  · rw [List.concat_eq_append] at h2
    subst h2
    have h' : result ++ [c] = (l₁ ++ x :: l₂') ++ [a] := by
      rw [h]
      simp
    have hinj := List.append_inj' h' rfl
    have hca : c = a := by
      have h3 := hinj.2
      simp only [List.cons.injEq, and_true] at h3
      exact h3
    refine Or.inr ⟨l₂', ?_, hinj.1⟩
    rw [hca]

theorem topoRespects_append {g : Graph} {result : List String} {c : String}
    (h : topoRespects g result) (hc : ∀ y ∈ nodeDeps g c, y ∈ result) :
    topoRespects g (result ++ [c]) := by
  intro l₁ x l₂ hsplit y hy
  rcases mem_split_of_append_singleton hsplit with ⟨h2, hl1, hx⟩ | ⟨l₂', h2, hres⟩
  · rw [hx] at hy
    rw [hl1]
    exact hc y hy
  · exact h l₁ x l₂' hres y hy

theorem topoRespects_closed {g : Graph} {result : List String}
    (h : topoRespects g result) {r : String} (hr : r ∈ result) :
    ∀ y ∈ nodeDeps g r, y ∈ result := by
  intro y hy
  obtain ⟨l₁, l₂, hsplit⟩ := List.append_of_mem hr
  have := h l₁ r l₂ hsplit y hy
  rw [hsplit]
  exact List.mem_append_left _ this

theorem length_filter_and_ne (l : List String) (hnd : l.Nodup) (p : String → Bool)
    (c : String) :
    (((l.filter (fun d => p d && !(d == c))).length : Int)) =
      ((l.filter p).length : Int) - (if c ∈ l ∧ p c = true then 1 else 0) := by
  induction l with
  | nil => simp
  | cons a rest ih =>
      obtain ⟨ha, hrest⟩ := List.nodup_cons.mp hnd
      have ihr := ih hrest
      by_cases hac : a = c
      · subst hac
        have hcr : a ∉ rest := ha
        have hcong : rest.filter (fun d => p d && !(d == a)) = rest.filter p := by
          apply List.filter_congr
          intro x hx
          have hxa : ¬ x = a := fun he => hcr (he ▸ hx)
          simp [hxa]
        have hnotr : ¬ (a ∈ rest ∧ p a = true) := fun hcc => hcr hcc.1
        rw [if_neg hnotr] at ihr
        by_cases hp : p a = true
        · have hmem : a ∈ a :: rest ∧ p a = true := ⟨List.mem_cons_self _ _, hp⟩
          rw [if_pos hmem]
          simp only [List.filter_cons, hp, beq_self_eq_true, Bool.not_true, Bool.and_false,
            Bool.true_and, ite_true, Bool.false_eq_true, ite_false, hcong, List.length_cons]
          push_cast
          omega
        · have hpf : p a = false := Bool.eq_false_iff.mpr hp
          have hmemf : ¬ (a ∈ a :: rest ∧ p a = true) := fun hcc => hp hcc.2
          rw [if_neg hmemf]
          simp only [List.filter_cons, hpf, Bool.false_and, Bool.false_eq_true, ite_false,
            hcong]
          simp
      · have hiff : (c ∈ a :: rest ∧ p c = true) ↔ (c ∈ rest ∧ p c = true) := by
          constructor
          · rintro ⟨h1, h2⟩
            rcases List.mem_cons.mp h1 with h3 | h3
            · exact absurd h3.symm hac
            · exact ⟨h3, h2⟩
          · rintro ⟨h1, h2⟩
            exact ⟨List.mem_cons_of_mem _ h1, h2⟩
        have hane : (!(a == c)) = true := by
          simp [hac]
        by_cases hcp : c ∈ rest ∧ p c = true
        · rw [if_pos (hiff.mpr hcp)]
          rw [if_pos hcp] at ihr
          by_cases hp : p a = true
          · simp only [List.filter_cons, hp, hane, Bool.true_and, ite_true, List.length_cons]
            push_cast at ihr ⊢
            omega
          · have hpf : p a = false := Bool.eq_false_iff.mpr hp
            simp only [List.filter_cons, hpf, Bool.false_and, Bool.false_eq_true, ite_false]
            exact ihr
        · rw [if_neg (fun hc2 => hcp (hiff.mp hc2))]
          rw [if_neg hcp] at ihr
          by_cases hp : p a = true
          · simp only [List.filter_cons, hp, hane, Bool.true_and, ite_true, List.length_cons]
            push_cast at ihr ⊢
            omega
          · have hpf : p a = false := Bool.eq_false_iff.mpr hp
            simp only [List.filter_cons, hpf, Bool.false_and, Bool.false_eq_true, ite_false]
            exact ihr

/-- Loop invariant of Kahn's algorithm. -/
def KInv (g : Graph) (queue result : List String) (inDeg : String → Int) : Prop :=
  result.Nodup ∧
  (∀ r ∈ result, hasNode g r) ∧
  queue.Nodup ∧
  (∀ q ∈ queue, hasNode g q ∧ q ∉ result) ∧
  (∀ x, inDeg x = (((nodeDeps g x).filter (fun d => decide (d ∉ result))).length : Int)) ∧
  (∀ x, hasNode g x → x ∉ result → (∀ d ∈ nodeDeps g x, d ∈ result) → x ∈ queue) ∧
  topoRespects g result ∧
  (∀ q ∈ queue, ∀ y ∈ nodeDeps g q, y ∈ result)

theorem mem_kahnInitialQueue (g : Graph) (x : String) :
    x ∈ kahnInitialQueue g ↔ ∃ n, (x, n) ∈ g ∧ n.dependencies.length = 0 := by
  unfold kahnInitialQueue
  rw [List.mem_map]
  constructor
  · rintro ⟨kv, hkv, hfst⟩
    obtain ⟨h1, h2⟩ := List.mem_filter.mp hkv
    refine ⟨kv.2, ?_, by simpa using h2⟩
    rw [← hfst]
    exact h1
  · rintro ⟨n, hmem, hlen⟩
    exact ⟨(x, n), List.mem_filter.mpr ⟨hmem, by simpa using hlen⟩, rfl⟩

theorem kinv_init (g : Graph) (hwf : GraphWF g) :
    KInv g (kahnInitialQueue g) [] (kahnInitialInDegree g) := by
  have hknodup : (mapKeys g).Nodup := hwf.1.1
  refine ⟨List.nodup_nil, by simp, ?_, ?_, ?_, ?_, topoRespects_nil g, ?_⟩
  · unfold kahnInitialQueue
    have hsub : ((g.filter (fun kv => decide (kv.2.dependencies.length = 0))).map (·.1)).Sublist
        (g.map (·.1)) := (List.filter_sublist g).map _
    exact hknodup.sublist hsub
  · intro q hq
    obtain ⟨n, hmem, _⟩ := (mem_kahnInitialQueue g q).mp hq
    refine ⟨?_, by simp⟩
    rw [hasNode_iff_mem_keys]
    exact List.mem_map_of_mem Prod.fst hmem
  · intro x
    unfold kahnInitialInDegree
    have hfil : (nodeDeps g x).filter (fun d => decide (d ∉ ([] : List String))) =
        nodeDeps g x := by
      apply List.filter_eq_self.mpr
      intro d _
      simp
    rw [hfil]
    unfold nodeDeps
    cases hl : lookupMap g x <;> simp

  · intro x hx hnr hdeps
    obtain ⟨n, hn⟩ := Option.isSome_iff_exists.mp hx
    have hlen : n.dependencies.length = 0 := by
      have : nodeDeps g x = n.dependencies := by simp [nodeDeps, hn]
      rw [List.length_eq_zero]
      rw [← this]
      rw [List.eq_nil_iff_forall_not_mem]
      intro d hd
      exact absurd (hdeps d hd) (List.not_mem_nil d)
    exact (mem_kahnInitialQueue g x).mpr ⟨n, mem_of_lookupMap_eq_some hn, hlen⟩
  · intro q hq y hy
    obtain ⟨n, hmem, hlen⟩ := (mem_kahnInitialQueue g q).mp hq
    have hl : lookupMap g q = some n := lookupMap_eq_some_of_mem hknodup hmem
    have : nodeDeps g q = [] := by
      simp only [nodeDeps, hl]
      exact List.length_eq_zero.mp hlen
    rw [this] at hy
    exact absurd hy (List.not_mem_nil y)

theorem kinv_step (g : Graph) (hwf : GraphWF g) (current : String) (rest result : List String)
    (inDeg : String → Int) (node : DependencyNode) (hcur : lookupMap g current = some node)
    (h : KInv g (current :: rest) result inDeg) :
    KInv g (processDependents inDeg rest node.dependents).2 (result ++ [current])
      (processDependents inDeg rest node.dependents).1 := by
  obtain ⟨hres_nd, hres_has, hq_nd, hq, hdeg, hready, hresp, hqdeps⟩ := h
  have hcur_rest : current ∉ rest := (List.nodup_cons.mp hq_nd).1
  have hrest_nd : rest.Nodup := (List.nodup_cons.mp hq_nd).2
  have hds_eq : nodeDependents g current = node.dependents := by
    simp [nodeDependents, hcur]
  have hds_nd : node.dependents.Nodup := hds_eq ▸ wf_nodeDependents_nodup hwf current
  have hpdq := processDependents_queue node.dependents hds_nd inDeg rest
  have hpdd := processDependents_inDeg node.dependents hds_nd inDeg rest
  have hcur_not_res : current ∉ result := (hq current (List.mem_cons_self _ _)).2
  have hcur_has : hasNode g current := (hq current (List.mem_cons_self _ _)).1
  have hzero : ∀ x, (∀ d ∈ nodeDeps g x, d ∈ result) → inDeg x = 0 := by
    intro x hx
    rw [hdeg x]
    have hnil : (nodeDeps g x).filter (fun d => decide (d ∉ result)) = [] := by
      rw [List.filter_eq_nil_iff]
      intro d hd
      simp [hx d hd]
    rw [hnil]
    rfl
  have hcur_zero : inDeg current = 0 := hzero current (hqdeps current (List.mem_cons_self _ _))
  have hres_zero : ∀ r ∈ result, inDeg r = 0 := fun r hr =>
    hzero r (topoRespects_closed hresp hr)
  have hfilt_mem : ∀ x, (x ∈ node.dependents.filter (fun d => decide (inDeg d - 1 = 0)) ↔
      x ∈ node.dependents ∧ inDeg x = 1) := by
    intro x
    rw [List.mem_filter]
    constructor
    · rintro ⟨h1, h2⟩
      simp only [decide_eq_true_eq] at h2
      exact ⟨h1, by omega⟩
    · rintro ⟨h1, h2⟩
      refine ⟨h1, ?_⟩
      simp only [decide_eq_true_eq]
      omega
  have htrans : ∀ x, x ∈ node.dependents ↔ current ∈ nodeDeps g x := by
    intro x
    rw [← hds_eq]
    exact (wf_transpose hwf x current).symm
  have hsingleton : ∀ x, current ∈ nodeDeps g x → inDeg x = 1 →
      (nodeDeps g x).filter (fun d => decide (d ∉ result)) = [current] := by
    intro x hcx hdx
    have hlen : ((nodeDeps g x).filter (fun d => decide (d ∉ result))).length = 1 := by
      have := hdeg x
      rw [hdx] at this
      omega
    obtain ⟨z, hz⟩ := List.length_eq_one.mp hlen
    have hcin : current ∈ (nodeDeps g x).filter (fun d => decide (d ∉ result)) :=
      List.mem_filter.mpr ⟨hcx, by simp [hcur_not_res]⟩
    rw [hz] at hcin ⊢
    have : current = z := List.mem_singleton.mp hcin
    rw [this]
  have hsingleton' : ∀ x, current ∈ nodeDeps g x → current ∉ result →
      (∀ d ∈ nodeDeps g x, d ∈ result ++ [current]) → inDeg x = 1 := by
    intro x hcx _ hsub
    have hfil : (nodeDeps g x).filter (fun d => decide (d ∉ result)) = [current] := by
      apply eq_singleton_of_all_eq ((wf_nodeDeps_nodup hwf x).filter _)
      · exact List.mem_filter.mpr ⟨hcx, by simp [hcur_not_res]⟩
      · intro d hd
        obtain ⟨hd1, hd2⟩ := List.mem_filter.mp hd
        simp only [decide_eq_true_eq] at hd2
        rcases List.mem_append.mp (hsub d hd1) with h1 | h1
        · exact absurd h1 hd2
        · exact List.mem_singleton.mp h1
    rw [hdeg x, hfil]
    rfl
  refine ⟨?_, ?_, ?_, ?_, ?_, ?_, ?_, ?_⟩
  · refine List.Nodup.append hres_nd (List.nodup_singleton current) ?_
    intro x hx hxc
    rw [List.mem_singleton.mp hxc] at hx
    exact hcur_not_res hx
  · intro r hr
    rcases List.mem_append.mp hr with h1 | h1
    · exact hres_has r h1
    · rw [List.mem_singleton.mp h1]
      exact hcur_has
  · rw [hpdq]
    refine List.Nodup.append hrest_nd (hds_nd.filter _) ?_
    intro x hx hxf
    obtain ⟨hx1, hx2⟩ := (hfilt_mem x).mp hxf
    have h0 : inDeg x = 0 := hzero x (hqdeps x (List.mem_cons_of_mem _ hx))
    omega
  · rw [hpdq]
    intro q hq'
    rcases List.mem_append.mp hq' with h1 | h1
    · obtain ⟨hh, hnr⟩ := hq q (List.mem_cons_of_mem _ h1)
      refine ⟨hh, ?_⟩
      intro hc
      rcases List.mem_append.mp hc with h2 | h2
      · exact hnr h2
      · rw [List.mem_singleton.mp h2] at h1
        exact hcur_rest h1
    · obtain ⟨hds, hone⟩ := (hfilt_mem q).mp h1
      refine ⟨wf_dependents_hasNode hwf (hds_eq ▸ hds), ?_⟩
      intro hc
      rcases List.mem_append.mp hc with h2 | h2
      · have := hres_zero q h2
        omega
      · rw [List.mem_singleton.mp h2] at hone
        omega
  · intro x
    rw [hpdd]
    have hfc : (nodeDeps g x).filter (fun d => decide (d ∉ result ++ [current])) =
        (nodeDeps g x).filter
          (fun d => decide (d ∉ result) && !(d == current)) := by
      apply List.filter_congr
      intro d _
      by_cases h1 : d ∈ result <;> by_cases h2 : d = current <;> simp [h1, h2]
    rw [hfc, length_filter_and_ne _ (wf_nodeDeps_nodup hwf x) _ current]
    have hpc : (decide (current ∉ result)) = true := by simp [hcur_not_res]
    by_cases hx : x ∈ node.dependents
    · rw [if_pos hx]
      have hmemc : current ∈ nodeDeps g x := (htrans x).mp hx
      rw [if_pos ⟨hmemc, hpc⟩, hdeg x]
    · rw [if_neg hx]
      have hnc : current ∉ nodeDeps g x := fun hc => hx ((htrans x).mpr hc)
      rw [if_neg (fun hc => hnc hc.1), hdeg x]
      ring
  · intro x hxh hxr hxdeps
    rw [hpdq]
    by_cases hxds : x ∈ node.dependents
    · refine List.mem_append_right _ ((hfilt_mem x).mpr ⟨hxds, ?_⟩)
      exact hsingleton' x ((htrans x).mp hxds) hcur_not_res hxdeps
    · have hsub : ∀ d ∈ nodeDeps g x, d ∈ result := by
        intro d hd
        rcases List.mem_append.mp (hxdeps d hd) with h1 | h1
        · exact h1
        · rw [List.mem_singleton.mp h1] at hd
          exact absurd ((htrans x).mpr hd) hxds
      have hx' : x ∈ current :: rest :=
        hready x hxh (fun hc => hxr (List.mem_append_left _ hc)) hsub
      rcases List.mem_cons.mp hx' with h1 | h1
      · exact absurd (List.mem_append_right _ (by rw [h1]; simp)) hxr
      · exact List.mem_append_left _ h1
  · exact topoRespects_append hresp (hqdeps current (List.mem_cons_self _ _))
  · rw [hpdq]
    intro q hq' y hy
    rcases List.mem_append.mp hq' with h1 | h1
    · exact List.mem_append_left _ (hqdeps q (List.mem_cons_of_mem _ h1) y hy)
    · obtain ⟨hds, hone⟩ := (hfilt_mem q).mp h1
      by_cases hyr : y ∈ result
      · exact List.mem_append_left _ hyr
      · have hcq : current ∈ nodeDeps g q := (htrans q).mp hds
        have hfil := hsingleton q hcq hone
        have hyf : y ∈ (nodeDeps g q).filter (fun d => decide (d ∉ result)) :=
          List.mem_filter.mpr ⟨hy, by simp [hyr]⟩
        rw [hfil] at hyf
        rw [List.mem_singleton.mp hyf]
        exact List.mem_append_right _ (List.mem_singleton_self _)

theorem kahnLoop_nil (g : Graph) (fuel : Nat) (result : List String) (inDeg : String → Int) :
    kahnLoop g (fuel + 1) [] result inDeg = result := rfl

theorem kahnLoop_cons_some (g : Graph) (fuel : Nat) (current : String)
    (rest result : List String) (inDeg : String → Int) (node : DependencyNode)
    (hcur : lookupMap g current = some node) :
    kahnLoop g (fuel + 1) (current :: rest) result inDeg =
      kahnLoop g fuel (processDependents inDeg rest node.dependents).2
        (result ++ [current]) (processDependents inDeg rest node.dependents).1 := by
  simp only [kahnLoop, hcur]

theorem unvisitedCount_append_singleton (g : Graph) (result : List String) (c : String) :
    unvisitedCount g (result ++ [c]) = unvisitedCount g (c :: result) := by
  unfold unvisitedCount
  congr 1
  apply List.filter_congr
  intro x _
  by_cases h1 : x ∈ result <;> by_cases h2 : x = c <;> simp [h1, h2]

theorem kahnLoop_spec (g : Graph) (hwf : GraphWF g) : ∀ (fuel : Nat)
    (queue result : List String) (inDeg : String → Int),
    KInv g queue result inDeg → unvisitedCount g result < fuel →
    ((kahnLoop g fuel queue result inDeg).Nodup ∧
     (∀ r ∈ kahnLoop g fuel queue result inDeg, hasNode g r) ∧
     topoRespects g (kahnLoop g fuel queue result inDeg) ∧
     (∀ x, hasNode g x → x ∉ kahnLoop g fuel queue result inDeg →
        ∃ d ∈ nodeDeps g x, d ∉ kahnLoop g fuel queue result inDeg)) := by
  intro fuel
  induction fuel with
  | zero =>
      intro queue result inDeg _ hf
      omega
  | succ fuel ih =>
      intro queue result inDeg hinv hf
      cases queue with
      | nil =>
          rw [kahnLoop_nil]
          obtain ⟨hres_nd, hres_has, _, _, _, hready, hresp, _⟩ := hinv
          refine ⟨hres_nd, hres_has, hresp, ?_⟩
          intro x hx hxr
          by_contra hc
          push_neg at hc
          exact absurd (hready x hx hxr hc) (List.not_mem_nil x)
      | cons current rest =>
          have hcur_has : hasNode g current := (hinv.2.2.2.1 current (List.mem_cons_self _ _)).1
          have hcur_not_res : current ∉ result :=
            (hinv.2.2.2.1 current (List.mem_cons_self _ _)).2
          obtain ⟨node, hcur⟩ := Option.isSome_iff_exists.mp hcur_has
          rw [kahnLoop_cons_some g fuel current rest result inDeg node hcur]
          have hinv' := kinv_step g hwf current rest result inDeg node hcur hinv
          have hcur_key : current ∈ mapKeys g := (hasNode_iff_mem_keys g current).mp hcur_has
          have hless : unvisitedCount g (result ++ [current]) < fuel := by
            rw [unvisitedCount_append_singleton]
            have := unvisitedCount_lt g result current hcur_key hcur_not_res
            omega
          exact ih _ _ _ hinv' hless

theorem exists_cycle_of_closed (E : String → String → Prop) (S : List String)
    (hne : S ≠ []) (hcl : ∀ x ∈ S, ∃ y, y ∈ S ∧ E x y) :
    ∃ z, Relation.TransGen E z z := by
  classical
  have hstep : ∀ t : {x : String // x ∈ S.toFinset}, ∃ t' : {x : String // x ∈ S.toFinset},
      E t.1 t'.1 := by
    intro t
    obtain ⟨y, hy, hE⟩ := hcl t.1 (List.mem_toFinset.mp t.2)
    exact ⟨⟨y, List.mem_toFinset.mpr hy⟩, hE⟩
  classical
  let f : {x : String // x ∈ S.toFinset} → {x : String // x ∈ S.toFinset} :=
    fun t => (hstep t).choose
  have hf : ∀ t, E t.1 (f t).1 := fun t => (hstep t).choose_spec
  obtain ⟨x0, hx0⟩ : ∃ x, x ∈ S := by
    cases S with
    | nil => exact absurd rfl hne
    | cons a t => exact ⟨a, List.mem_cons_self _ _⟩
  have htg : ∀ (k : Nat), 1 ≤ k → ∀ t, Relation.TransGen E t.1 ((f^[k]) t).1 := by
    intro k
    induction k with
    | zero => intro h; omega
    | succ k ihk =>
        intro _ t
        by_cases hk : 1 ≤ k
        · have h1 := ihk hk t
          have h2 : E ((f^[k]) t).1 ((f^[k + 1]) t).1 := by
            rw [Function.iterate_succ_apply']
            exact hf _
          exact h1.tail h2
        · have hk0 : k = 0 := by omega
          subst hk0
          simpa using Relation.TransGen.single (hf t)
  have hcard : Fintype.card {x : String // x ∈ S.toFinset} < Fintype.card (Fin (S.length + 1)) := by
    rw [Fintype.card_fin]
    have h1 : Fintype.card {x : String // x ∈ S.toFinset} = S.toFinset.card :=
      Fintype.card_coe _
    have h2 := List.toFinset_card_le (l := S)
    omega
  obtain ⟨i, j, hne', heq⟩ := Fintype.exists_ne_map_eq_of_card_lt
    (fun i : Fin (S.length + 1) => (f^[i.1]) ⟨x0, List.mem_toFinset.mpr hx0⟩) hcard
  have hvalne : i.1 ≠ j.1 := fun hv => hne' (Fin.ext hv)
  rcases Nat.lt_or_ge i.1 j.1 with hij | hij
  · refine ⟨((f^[i.1]) ⟨x0, List.mem_toFinset.mpr hx0⟩).1, ?_⟩
    have hm : j.1 = (j.1 - i.1) + i.1 := by omega
    have hsplit : (f^[j.1]) ⟨x0, List.mem_toFinset.mpr hx0⟩ =
        (f^[j.1 - i.1]) ((f^[i.1]) ⟨x0, List.mem_toFinset.mpr hx0⟩) := by
      rw [hm, Function.iterate_add_apply]
      simp only [Nat.add_sub_cancel]
    have h1 := htg (j.1 - i.1) (by omega) ((f^[i.1]) ⟨x0, List.mem_toFinset.mpr hx0⟩)
    rw [← hsplit, ← heq] at h1
    exact h1
  · have hij' : j.1 < i.1 := by omega
    refine ⟨((f^[j.1]) ⟨x0, List.mem_toFinset.mpr hx0⟩).1, ?_⟩
    have hm : i.1 = (i.1 - j.1) + j.1 := by omega
    have hsplit : (f^[i.1]) ⟨x0, List.mem_toFinset.mpr hx0⟩ =
        (f^[i.1 - j.1]) ((f^[j.1]) ⟨x0, List.mem_toFinset.mpr hx0⟩) := by
      rw [hm, Function.iterate_add_apply]
      simp only [Nat.add_sub_cancel]
    have h1 := htg (i.1 - j.1) (by omega) ((f^[j.1]) ⟨x0, List.mem_toFinset.mpr hx0⟩)
    rw [← hsplit, heq] at h1
    exact h1

theorem hasNode_of_dependsOn {g : Graph} {a b : String} (h : dependsOn g a b) :
    hasNode g a := by
  unfold dependsOn nodeDeps at h
  cases hl : lookupMap g a with
  | none =>
      rw [hl] at h
      exact absurd h (List.not_mem_nil b)
  | some n =>
      simp [hasNode, hl]

theorem acyclic_of_topoRespects (g : Graph) (R : List String) (hnd : R.Nodup)
    (hresp : topoRespects g R) (hall : ∀ x, hasNode g x → x ∈ R) : Acyclic g := by
  have hstep : ∀ a b, dependsOn g a b → a ∈ R → b ∈ R ∧ R.indexOf b < R.indexOf a := by
    intro a b hab haR
    obtain ⟨l₁, l₂, hsplit⟩ := List.append_of_mem haR
    have hbl1 : b ∈ l₁ := hresp l₁ a l₂ hsplit b hab
    have hbR : b ∈ R := by
      rw [hsplit]
      exact List.mem_append_left _ hbl1
    refine ⟨hbR, ?_⟩
    have hanl1 : a ∉ l₁ := by
      intro hc
      rw [hsplit] at hnd
      exact (List.disjoint_of_nodup_append hnd) hc (List.mem_cons_self _ _)
    rw [hsplit, List.indexOf_append_of_mem hbl1, List.indexOf_append_of_not_mem hanl1,
      List.indexOf_cons_self]
    have := List.indexOf_lt_length.mpr hbl1
    omega
  have hchain : ∀ a b, Relation.TransGen (dependsOn g) a b → a ∈ R →
      b ∈ R ∧ R.indexOf b < R.indexOf a := by
    intro a b htgab haR
    induction htgab with
    | single h1 => exact hstep _ _ h1 haR
    | tail h1 h2 ih1 =>
        obtain ⟨hbR, hlt⟩ := ih1
        obtain ⟨hcR, hlt2⟩ := hstep _ _ h2 hbR
        exact ⟨hcR, lt_trans hlt2 hlt⟩
  intro x hx
  obtain ⟨b, hxb, _⟩ := Relation.TransGen.head'_iff.mp hx
  have hxR := hall x (hasNode_of_dependsOn hxb)
  have := (hchain x x hx hxR).2
  omega

theorem GetTopologicalOrder_spec (g : Graph) (hwf : GraphWF g) :
    (Acyclic g → ∃ order, GetTopologicalOrder g = Except.ok order ∧
      order.Perm (mapKeys g) ∧ topoRespects g order) ∧
    (¬ Acyclic g → GetTopologicalOrder g = Except.error "dependency graph contains cycles") := by
  have hfuel : unvisitedCount g [] < g.length + 1 := by
    unfold unvisitedCount
    have h1 : ((mapKeys g).filter (fun k => decide (k ∉ ([] : List String)))).length ≤
        (mapKeys g).length := List.length_filter_le _ _
    have h2 : (mapKeys g).length = g.length := List.length_map _ _
    omega
  obtain ⟨hnd, hhas, hresp, hsat⟩ := kahnLoop_spec g hwf (g.length + 1)
    (kahnInitialQueue g) [] (kahnInitialInDegree g) (kinv_init g hwf) hfuel
  have hRsub : kahnLoop g (g.length + 1) (kahnInitialQueue g) [] (kahnInitialInDegree g) ⊆
      mapKeys g := fun r hr => (hasNode_iff_mem_keys g r).mp (hhas r hr)
  have hkeysnd : (mapKeys g).Nodup := hwf.1.1
  have hkeylen : (mapKeys g).length = g.length := List.length_map _ _
  constructor
  · intro hacy
    have hcomplete : ∀ x ∈ mapKeys g,
        x ∈ kahnLoop g (g.length + 1) (kahnInitialQueue g) [] (kahnInitialInDegree g) := by
      by_contra hc
      push_neg at hc
      obtain ⟨x0, hx0k, hx0r⟩ := hc
      have hSne : (mapKeys g).filter (fun k => decide
          (k ∉ kahnLoop g (g.length + 1) (kahnInitialQueue g) [] (kahnInitialInDegree g))) ≠
          [] := by
        intro hnil
        have hx0S : x0 ∈ (mapKeys g).filter (fun k => decide
            (k ∉ kahnLoop g (g.length + 1) (kahnInitialQueue g) [] (kahnInitialInDegree g))) :=
          List.mem_filter.mpr ⟨hx0k, by simp [hx0r]⟩
        rw [hnil] at hx0S
        exact absurd hx0S (List.not_mem_nil x0)
      have hclosed : ∀ x ∈ (mapKeys g).filter (fun k => decide
          (k ∉ kahnLoop g (g.length + 1) (kahnInitialQueue g) [] (kahnInitialInDegree g))),
          ∃ y, y ∈ (mapKeys g).filter (fun k => decide
            (k ∉ kahnLoop g (g.length + 1) (kahnInitialQueue g) [] (kahnInitialInDegree g))) ∧
            dependsOn g x y := by
        intro x hx
        obtain ⟨hxk, hxr'⟩ := List.mem_filter.mp hx
        have hxr : x ∉ kahnLoop g (g.length + 1) (kahnInitialQueue g) []
            (kahnInitialInDegree g) := by simpa using hxr'
        obtain ⟨d, hd, hdr⟩ := hsat x ((hasNode_iff_mem_keys g x).mpr hxk) hxr
        refine ⟨d, List.mem_filter.mpr ⟨?_, by simp [hdr]⟩, hd⟩
        exact (hasNode_iff_mem_keys g d).mp (wf_deps_hasNode hwf hd)
      obtain ⟨z, hz⟩ := exists_cycle_of_closed (dependsOn g) _ hSne hclosed
      exact hacy z hz
    have hperm : (kahnLoop g (g.length + 1) (kahnInitialQueue g) []
        (kahnInitialInDegree g)).Perm (mapKeys g) :=
      (List.subperm_of_subset hnd hRsub).antisymm
        (List.subperm_of_subset hkeysnd hcomplete)
    have hlen : (kahnLoop g (g.length + 1) (kahnInitialQueue g) []
        (kahnInitialInDegree g)).length = g.length := by
      rw [hperm.length_eq, hkeylen]
    refine ⟨kahnLoop g (g.length + 1) (kahnInitialQueue g) [] (kahnInitialInDegree g),
      ?_, hperm, hresp⟩
    simp only [GetTopologicalOrder]
    rw [if_pos hlen]
  · intro hnacy
    simp only [GetTopologicalOrder]
    by_cases hlen : (kahnLoop g (g.length + 1) (kahnInitialQueue g) []
        (kahnInitialInDegree g)).length = g.length
    · exfalso
      have hsub : List.Subperm
          (kahnLoop g (g.length + 1) (kahnInitialQueue g) [] (kahnInitialInDegree g))
          (mapKeys g) := List.subperm_of_subset hnd hRsub
      have hperm := hsub.perm_of_length_le (by omega)
      have hall : ∀ x, hasNode g x →
          x ∈ kahnLoop g (g.length + 1) (kahnInitialQueue g) [] (kahnInitialInDegree g) := by
        intro x hx
        exact hperm.symm.subset ((hasNode_iff_mem_keys g x).mp hx)
      exact hnacy (acyclic_of_topoRespects g _ hnd hresp hall)
    · rw [if_neg hlen]

theorem acyclic_of_single_edge (g : Graph) (x0 y0 : String) (hne : ¬ x0 = y0)
    (hchar : ∀ x y, dependsOn g x y → x = x0 ∧ y = y0) : Acyclic g := by
  have hline : ∀ x y, Relation.TransGen (dependsOn g) x y → x = x0 ∧ y = y0 := by
    intro x y h
    induction h with
    | single h1 => exact hchar _ _ h1
    | tail h1 h2 ih =>
        exact ⟨ih.1, (hchar _ _ h2).2⟩
  intro x hx
  obtain ⟨h1, h2⟩ := hline x x hx
  rw [h1] at h2
  exact hne h2

/-- Graph reachable via UpdateNode from empty with a duplicated dependency
entry: node a depends on b twice (for example two aliased imports of the
same path). -/
def dupDepsGraph : Graph :=
  UpdateNode [] "a" ["b", "b"]

theorem dupDepsGraph_eq :
    dupDepsGraph =
      [("a", { filePath := "a", nodeType := .SourceFile, dependencies := ["b", "b"],
               dependents := [], contentHash := "" }),
       ("b", { filePath := "b", nodeType := .SourceFile, dependencies := [],
               dependents := ["a"], contentHash := "" })] := by
  decide

theorem dupDepsGraph_edge (x y : String) (h : dependsOn dupDepsGraph x y) :
    x = "a" ∧ y = "b" := by
  rw [dupDepsGraph_eq] at h
  unfold dependsOn nodeDeps at h
  by_cases hx : x = "a"
  · subst hx
    simp only [lookupMap, if_pos rfl] at h
    refine ⟨rfl, ?_⟩
    rcases List.mem_cons.mp h with h1 | h1
    · exact h1
    · rcases List.mem_cons.mp h1 with h2 | h2
      · exact h2
      · exact absurd h2 (List.not_mem_nil y)
  · by_cases hx2 : x = "b"
    · subst hx2
      simp only [lookupMap, hx] at h
      simp at h
    · simp only [lookupMap, hx, hx2] at h
      simp at h

theorem exampleGraphA_edge (x y : String) (h : dependsOn exampleGraphA x y) :
    x = "b" ∧ y = "a" := by
  unfold dependsOn nodeDeps exampleGraphA at h
  by_cases hx : x = "a"
  · subst hx
    simp only [lookupMap, if_pos rfl] at h
    simp at h
  · by_cases hx2 : x = "b"
    · subst hx2
      simp only [lookupMap, hx] at h
      refine ⟨rfl, ?_⟩
      simp at h
      exact h
    · simp only [lookupMap, hx, hx2] at h
      simp at h

/-- C5 (counterexample): an acyclic graph reachable through the public
UpdateNode API on which GetTopologicalOrder fails with the cycle error,
because the duplicated dependency entry makes the in-degree 2 while the
dependent back-edge is deduplicated and is decremented only once. -/
theorem C5_counterexample :
    Acyclic dupDepsGraph ∧
    GetTopologicalOrder dupDepsGraph = Except.error "dependency graph contains cycles" := by
  constructor
  · exact acyclic_of_single_edge dupDepsGraph "a" "b" (by decide) dupDepsGraph_edge
  · rfl

/-- C5 (amended): for well-formed graphs (transpose-consistent adjacency
with duplicate-free per-node lists), GetTopologicalOrder returns on every
acyclic graph a permutation of the nodes in which every node appears after
all of its dependencies, and on every cyclic graph it returns no order and
fails with the cycle error. -/
theorem C5_topological_order (g : Graph) (hwf : GraphWF g) :
    (Acyclic g → ∃ order, GetTopologicalOrder g = Except.ok order ∧
      order.Perm (mapKeys g) ∧ topoRespects g order) ∧
    (¬ Acyclic g → GetTopologicalOrder g = Except.error "dependency graph contains cycles") :=
  GetTopologicalOrder_spec g hwf

/-- Witness for C5 at a concrete input: a two-node acyclic well-formed
graph. -/
theorem C5_witness :
    ∃ order, GetTopologicalOrder exampleGraphA = Except.ok order ∧
      order.Perm (mapKeys exampleGraphA) ∧ topoRespects exampleGraphA order :=
  (C5_topological_order exampleGraphA
      ⟨graphInv_of_graphInvB exampleGraphA (by decide), by decide⟩).1
    (acyclic_of_single_edge exampleGraphA "b" "a" (by decide) exampleGraphA_edge)

/-! ## Content cache (Layer 1, from the content cache source file) -/

/-- File-content identity entry, mirroring models.ContentEntry. Time is
modelled as an integer. -/
structure ContentEntry where
  filePath : String
  contentHash : String
  modTime : Int
  size : Int
  fileExists : Bool
deriving DecidableEq, Repr

/-- Result of one stat of the file system for a path. The hash field of
the file case stands for the md5 digest of the file's bytes, so two
snapshots of a path have equal hash exactly when their bytes are equal
(hash collisions are an accepted non-goal of the spec). -/
inductive FsResult where
  | notExist
  | statError
  | file (size : Int) (modTime : Int) (hash : String)
deriving DecidableEq, Repr

/-- A consistent snapshot of the file system. -/
abbrev FileSystem := String → FsResult

/-- The content-cache store: path to entry, as in the Go map. -/
abbrev ContentStore := List (String × ContentEntry)

/-- Mirrors ContentCache.UpdateContent. Returns (entry, changed, store).
The Except error stands for the stat/hash error returns of the Go code. -/
def UpdateContent (fs : FileSystem) (cc : ContentStore) (filePath : String) :
    Except String (Option ContentEntry × Bool × ContentStore) :=
  match fs filePath with
  | .statError => Except.error ("failed to stat file " ++ filePath)
  | .notExist =>
      match lookupMap cc filePath with
      | some existing => Except.ok (some existing, true, eraseKey cc filePath)
      | none => Except.ok (none, false, cc)
  | .file size modTime hash =>
      match lookupMap cc filePath with
      | none =>
          let entry : ContentEntry :=
            { filePath := filePath, contentHash := hash, modTime := modTime,
              size := size, fileExists := true }
          Except.ok (some entry, true, setMap cc filePath entry)
      | some existing =>
          if size = existing.size ∧ modTime = existing.modTime then
            Except.ok (some existing, false, cc)
          else if ¬ hash = existing.contentHash then
            let entry : ContentEntry :=
              { filePath := filePath, contentHash := hash, modTime := modTime,
                size := size, fileExists := true }
            Except.ok (some entry, true, setMap cc filePath entry)
          else
            let entry : ContentEntry :=
              { existing with modTime := modTime, size := size }
            Except.ok (some entry, false, setMap cc filePath entry)

/-- C6 (counterexample): for a missing file with no cached entry,
UpdateContent reports changed = false, not changed = true as the claim
states for every missing file. -/
theorem C6_counterexample :
    UpdateContent (fun _ => FsResult.notExist) [] "p" =
      Except.ok (none, false, []) ∧ ¬ (false = true) := by
  constructor
  · rfl
  · decide

/-- C6 (amended): UpdateContent's case analysis. If the file is missing, a
cached entry is deleted and changed = true is reported, while a missing
untracked file reports changed = false; a new entry is created with
changed = true for an untracked existing file; matching stored size and
mtime report changed = false with the entry and the store untouched;
otherwise the hash decides: a different hash stores a fresh entry with
changed = true, an equal hash (touch or resave with identical bytes)
reports changed = false while refreshing the stored mtime and size and
leaving the stored hash unchanged. -/
theorem C6_UpdateContent_cases (fs : FileSystem) (cc : ContentStore) (p : String) :
    (fs p = FsResult.notExist →
      (∀ e, lookupMap cc p = some e →
        UpdateContent fs cc p = Except.ok (some e, true, eraseKey cc p)) ∧
      (lookupMap cc p = none → UpdateContent fs cc p = Except.ok (none, false, cc))) ∧
    (∀ size modTime hash, fs p = FsResult.file size modTime hash →
      (lookupMap cc p = none →
        UpdateContent fs cc p = Except.ok
          (some ⟨p, hash, modTime, size, true⟩, true, setMap cc p ⟨p, hash, modTime, size, true⟩)) ∧
      (∀ e, lookupMap cc p = some e →
        (size = e.size ∧ modTime = e.modTime →
          UpdateContent fs cc p = Except.ok (some e, false, cc)) ∧
        (¬ (size = e.size ∧ modTime = e.modTime) → ¬ hash = e.contentHash →
          UpdateContent fs cc p = Except.ok
            (some ⟨p, hash, modTime, size, true⟩, true, setMap cc p ⟨p, hash, modTime, size, true⟩)) ∧
        (¬ (size = e.size ∧ modTime = e.modTime) → hash = e.contentHash →
          UpdateContent fs cc p = Except.ok
            (some { e with modTime := modTime, size := size }, false,
              setMap cc p { e with modTime := modTime, size := size }) ∧
          (lookupMap (setMap cc p { e with modTime := modTime, size := size }) p).map
              (·.contentHash) = (lookupMap cc p).map (·.contentHash)))) ∧
    (∀ e chg cc', UpdateContent fs cc p = Except.ok (e, chg, cc') → chg = false →
      (lookupMap cc' p).map (·.contentHash) = (lookupMap cc p).map (·.contentHash)) := by
  refine ⟨?_, ?_, ?_⟩
  · intro hfs
    constructor
    · intro e he
      simp [UpdateContent, hfs, he]
    · intro he
      simp [UpdateContent, hfs, he]
  · intro size modTime hash hfs
    constructor
    · intro he
      simp [UpdateContent, hfs, he]
    · intro e he
      refine ⟨?_, ?_, ?_⟩
      · intro hmatch
        simp [UpdateContent, hfs, he, hmatch]
      · intro hmatch hhash
        simp [UpdateContent, hfs, he, hmatch, hhash]
      · intro hmatch hhash
        constructor
        · simp [UpdateContent, hfs, he, hmatch, hhash]
        · rw [lookupMap_setMap_self, he]
          simp [hhash]
  · intro e chg cc' hupd hchg
    subst hchg
    cases hfs : fs p with
    | statError => simp [UpdateContent, hfs] at hupd
    | notExist =>
        cases he : lookupMap cc p with
        | some ex => simp [UpdateContent, hfs, he] at hupd
        | none =>
            simp [UpdateContent, hfs, he] at hupd
            rw [← hupd.2, he]
    | file size modTime hash =>
        cases he : lookupMap cc p with
        | none => simp [UpdateContent, hfs, he] at hupd
        | some ex =>
            by_cases hmatch : size = ex.size ∧ modTime = ex.modTime
            · simp [UpdateContent, hfs, he, hmatch] at hupd
              rw [← hupd.2, he]
            · by_cases hhash : hash = ex.contentHash
              · simp [UpdateContent, hfs, he, hmatch, hhash] at hupd
                rw [← hupd.2, lookupMap_setMap_self]
                simp [Option.map]
              · simp [UpdateContent, hfs, he, hmatch, hhash] at hupd

/-- Witness for C6 at a concrete input: a touch (same bytes, new mtime)
reports changed = false and refreshes the stored mtime while keeping the
hash. -/
def touchEntryOld : ContentEntry := ⟨"p", "h1", 5, 3, true⟩

def touchEntryNew : ContentEntry := ⟨"p", "h1", 7, 3, true⟩

theorem C6_witness :
    (¬ ((3 : Int) = 3 ∧ (7 : Int) = 5) → ("h1" : String) = "h1" →
      UpdateContent (fun _ => FsResult.file 3 7 "h1")
          [("p", touchEntryOld)] "p" =
        Except.ok (some { touchEntryOld with modTime := 7, size := 3 }, false,
          setMap [("p", touchEntryOld)] "p"
            { touchEntryOld with modTime := 7, size := 3 }) ∧
      (lookupMap (setMap [("p", touchEntryOld)] "p"
          { touchEntryOld with modTime := 7, size := 3 }) "p").map (·.contentHash) =
        (lookupMap [("p", touchEntryOld)] "p").map (·.contentHash)) :=
  fun hm hh =>
    ((((C6_UpdateContent_cases (fun _ => FsResult.file 3 7 "h1")
        [("p", touchEntryOld)] "p").2.1 3 7 "h1" rfl).2
      touchEntryOld rfl).2.2 hm hh)

/-! ## Generation cache (Layer 4, from generation_cache.go) -/

/-- Mirrors models.GenerationInfo; GeneratedAt is an integer timestamp. -/
structure GenerationInfo where
  sourcePath : String
  outputPath : String
  sourceHash : String
  templateHash : String
  dependencyHash : String
  generatedAt : Int
  configHash : String
deriving DecidableEq, Repr

/-- The generation-cache store: source path to generation record. -/
abbrev GenStore := List (String × GenerationInfo)

/-- Idealised md5 digest: an injective tag of its input. The spec accepts
hash collisions as a non-goal, so the digest is modelled collision-free. -/
def md5Hex (s : String) : String := "md5:" ++ s

/-- Byte-wise lexicographic comparison of character lists, mirroring Go's
string comparison (strings here are ASCII, one byte per character). -/
def charLeB : List Char → List Char → Bool
  | [], _ => true
  | _ :: _, [] => false
  | a :: as, b :: bs =>
    if a.toNat = b.toNat then charLeB as bs
    else decide (a.toNat < b.toNat)

theorem charToNatInj (a b : Char) (h : a.toNat = b.toNat) : a = b :=
  Char.eq_of_val_eq (UInt32.toNat.inj h)

theorem charLeB_total : ∀ a b, charLeB a b = true ∨ charLeB b a = true
  | [], _ => Or.inl rfl
  | _ :: _, [] => Or.inr rfl
  | a :: as, b :: bs => by
      by_cases he : a.toNat = b.toNat
      · have := charLeB_total as bs
        simp only [charLeB, he, if_pos, if_pos rfl]
        simpa [he] using this
      · simp only [charLeB, if_neg he, if_neg (fun h : b.toNat = a.toNat => he h.symm),
          decide_eq_true_eq]
        omega

theorem charLeB_trans : ∀ a b c, charLeB a b = true → charLeB b c = true →
    charLeB a c = true
  | [], _, _, _, _ => rfl
  | _ :: _, [], _, h1, _ => by simp [charLeB] at h1
  | _ :: _, _ :: _, [], _, h2 => by simp [charLeB] at h2
  | a :: as, b :: bs, c :: cs, h1, h2 => by
      by_cases he1 : a.toNat = b.toNat
      · rw [show charLeB (a :: as) (b :: bs) = charLeB as bs from by
            simp [charLeB, he1]] at h1
        by_cases he2 : b.toNat = c.toNat
        · rw [show charLeB (b :: bs) (c :: cs) = charLeB bs cs from by
              simp [charLeB, he2]] at h2
          have hac : a.toNat = c.toNat := he1.trans he2
          rw [show charLeB (a :: as) (c :: cs) = charLeB as cs from by
              simp [charLeB, hac]]
          exact charLeB_trans as bs cs h1 h2
        · rw [show charLeB (b :: bs) (c :: cs) = decide (b.toNat < c.toNat) from by
              simp [charLeB, he2]] at h2
          simp only [decide_eq_true_eq] at h2
          have hne : ¬ a.toNat = c.toNat := by omega
          rw [show charLeB (a :: as) (c :: cs) = decide (a.toNat < c.toNat) from by
              simp [charLeB, hne]]
          simp only [decide_eq_true_eq]
          omega
      · rw [show charLeB (a :: as) (b :: bs) = decide (a.toNat < b.toNat) from by
            simp [charLeB, he1]] at h1
        simp only [decide_eq_true_eq] at h1
        by_cases he2 : b.toNat = c.toNat
        · have hne : ¬ a.toNat = c.toNat := by omega
          rw [show charLeB (a :: as) (c :: cs) = decide (a.toNat < c.toNat) from by
              simp [charLeB, hne]]
          simp only [decide_eq_true_eq]
          omega
        · rw [show charLeB (b :: bs) (c :: cs) = decide (b.toNat < c.toNat) from by
              simp [charLeB, he2]] at h2
          simp only [decide_eq_true_eq] at h2
          have hne : ¬ a.toNat = c.toNat := by omega
          rw [show charLeB (a :: as) (c :: cs) = decide (a.toNat < c.toNat) from by
              simp [charLeB, hne]]
          simp only [decide_eq_true_eq]
          omega

theorem charLeB_antisymm : ∀ a b, charLeB a b = true → charLeB b a = true → a = b
  | [], [], _, _ => rfl
  | [], _ :: _, _, h2 => by simp [charLeB] at h2
  | _ :: _, [], h1, _ => by simp [charLeB] at h1
  | a :: as, b :: bs, h1, h2 => by
      by_cases he : a.toNat = b.toNat
      · rw [show charLeB (a :: as) (b :: bs) = charLeB as bs from by
            simp [charLeB, he]] at h1
        rw [show charLeB (b :: bs) (a :: as) = charLeB bs as from by
            simp [charLeB, he.symm]] at h2
        rw [charToNatInj a b he, charLeB_antisymm as bs h1 h2]
      · rw [show charLeB (a :: as) (b :: bs) = decide (a.toNat < b.toNat) from by
            simp [charLeB, he]] at h1
        have hne : ¬ b.toNat = a.toNat := fun h => he h.symm
        rw [show charLeB (b :: bs) (a :: as) = decide (b.toNat < a.toNat) from by
            simp [charLeB, hne]] at h2
        simp only [decide_eq_true_eq] at h1 h2
        omega

theorem stringDataInj (a b : String) (h : a.data = b.data) : a = b := by
  cases a
  cases b
  exact congrArg String.mk h

/-- Go's string order, byte-wise lexicographic, as a Bool. -/
def goStrLe (a b : String) : Bool := charLeB a.data b.data

instance goStrLeTotal : IsTotal String (fun a b => goStrLe a b = true) :=
  ⟨fun a b => charLeB_total a.data b.data⟩

instance goStrLeTrans : IsTrans String (fun a b => goStrLe a b = true) :=
  ⟨fun a b c h1 h2 => charLeB_trans a.data b.data c.data h1 h2⟩

instance goStrLeAntisymm : IsAntisymm String (fun a b => goStrLe a b = true) :=
  ⟨fun a b h1 h2 => stringDataInj a b (charLeB_antisymm a.data b.data h1 h2)⟩

/-- Mirrors sort.Strings: sorts in Go's byte-wise lexicographic order. -/
def sortStrings (l : List String) : List String :=
  List.insertionSort (fun a b => goStrLe a b = true) l

/-- Mirrors strings.Join. -/
def goJoin (sep : String) : List String → String
  | [] => ""
  | [x] => x
  | x :: y :: ys => x ++ sep ++ goJoin sep (y :: ys)

/-- Mirrors GenerationCache.calculateDependencyHash: empty list gives "",
otherwise the digest of the sorted list joined with "|". -/
def calculateDependencyHash : List String → String
  | [] => ""
  | d :: ds => md5Hex (goJoin "|" (sortStrings (d :: ds)))

/-- Mirrors GenerationCache.MarkGenerated; the timestamp is a parameter. -/
def MarkGenerated (gc : GenStore) (sourcePath outputPath sourceHash templateHash configHash : String)
    (dependencies : List String) (now : Int) : Except String GenStore :=
  if sourcePath = "" ∨ outputPath = "" then
    Except.error "source path and output path cannot be empty"
  else
    Except.ok (setMap gc sourcePath
      { sourcePath := sourcePath, outputPath := outputPath, sourceHash := sourceHash,
        templateHash := templateHash, dependencyHash := calculateDependencyHash dependencies,
        generatedAt := now, configHash := configHash })

/-- Mirrors the Go slice expression s[:8]: first 8 characters, none when the
string is shorter (the Go program panics there). -/
def goSlice8 (s : String) : Option String :=
  if 8 ≤ s.length then some (String.mk (s.data.take 8)) else none

/-- Mirrors GenerationCache.NeedsRegeneration. An Except.error models the
runtime panic of the out-of-range slice in the reason formatting. -/
def NeedsRegeneration (gc : GenStore) (sourcePath currentHash : String)
    (dependencies : List String) : Except String (Bool × String) :=
  match lookupMap gc sourcePath with
  | none => Except.ok (true, "no generation record found")
  | some entry =>
    if entry.sourceHash = currentHash then
      if entry.dependencyHash = calculateDependencyHash dependencies then
        Except.ok (false, "")
      else
        Except.ok (true, "dependencies changed")
    else
      match goSlice8 entry.sourceHash, goSlice8 currentHash with
      | some a, some b =>
          Except.ok (true, "source content changed (hash: " ++ a ++ " -> " ++ b ++ ")")
      | _, _ => Except.error "panic: slice bounds out of range"

/-- Character-level join with the bar separator, for injectivity reasoning. -/
def joinBar : List (List Char) → List Char
  | [] => []
  | [x] => x
  | x :: y :: ys => x ++ '|' :: joinBar (y :: ys)

theorem bar_data : ("|" : String).data = ['|'] := rfl

theorem goJoin_data : ∀ (l : List String), (goJoin "|" l).data = joinBar (l.map String.data)
  | [] => rfl
  | [_] => rfl
  | x :: y :: ys => by
      show (x ++ "|" ++ goJoin "|" (y :: ys)).data = joinBar (x.data :: y.data :: ys.map String.data)
      rw [String.data_append, String.data_append, bar_data, goJoin_data (y :: ys)]
      show x.data ++ ['|'] ++ joinBar ((y :: ys).map String.data) =
        joinBar (x.data :: y.data :: ys.map String.data)
      rw [List.append_assoc, List.singleton_append]
      rfl

theorem splitAtBar : ∀ (x y a b : List Char), '|' ∉ x → '|' ∉ y →
    x ++ '|' :: a = y ++ '|' :: b → x = y ∧ a = b
  | [], [], _, _, _, _, h => by
      simp only [List.nil_append, List.cons.injEq, true_and] at h
      exact ⟨rfl, h⟩
  | [], c :: ys, _, _, _, hy, h => by
      simp only [List.nil_append, List.cons_append, List.cons.injEq] at h
      have : '|' ∈ c :: ys := by rw [h.1]; exact List.mem_cons_self c ys
      exact (hy this).elim
  | c :: xs, [], _, _, hx, _, h => by
      simp only [List.nil_append, List.cons_append, List.cons.injEq] at h
      have : '|' ∈ c :: xs := by rw [← h.1]; exact List.mem_cons_self c xs
      exact (hx this).elim
  | c :: xs, d :: ys, a, b, hx, hy, h => by
      simp only [List.cons_append, List.cons.injEq] at h
      have ih := splitAtBar xs ys a b (fun m => hx (List.mem_cons_of_mem _ m))
        (fun m => hy (List.mem_cons_of_mem _ m)) h.2
      exact ⟨by rw [h.1, ih.1], ih.2⟩

theorem joinBar_inj : ∀ (l1 l2 : List (List Char)), l1 ≠ [] → l2 ≠ [] →
    (∀ s ∈ l1, '|' ∉ s) → (∀ s ∈ l2, '|' ∉ s) → joinBar l1 = joinBar l2 → l1 = l2
  | [], _, h1, _, _, _, _ => absurd rfl h1
  | _ :: _, [], _, h2, _, _, _ => absurd rfl h2
  | [x], [y], _, _, _, _, h => by
      have hj : x = y := h
      rw [hj]
  | [x], y :: y2 :: ys, _, _, hf1, hf2, h => by
      have hx := hf1 x (List.mem_cons_self x [])
      have hmem : '|' ∈ x := by
        have hj : x = y ++ '|' :: joinBar (y2 :: ys) := h
        rw [hj]
        exact List.mem_append_right _ (List.mem_cons_self '|' _)
      exact (hx hmem).elim
  | x :: x2 :: xs, [y], _, _, hf1, hf2, h => by
      have hy := hf2 y (List.mem_cons_self y [])
      have hmem : '|' ∈ y := by
        have hj : x ++ '|' :: joinBar (x2 :: xs) = y := h
        rw [← hj]
        exact List.mem_append_right _ (List.mem_cons_self '|' _)
      exact (hy hmem).elim
  | x :: x2 :: xs, y :: y2 :: ys, _, _, hf1, hf2, h => by
      have hsplit := splitAtBar x y (joinBar (x2 :: xs)) (joinBar (y2 :: ys))
        (hf1 x (List.mem_cons_self x _)) (hf2 y (List.mem_cons_self y _)) h
      have ih := joinBar_inj (x2 :: xs) (y2 :: ys) (by simp) (by simp)
        (fun s hs => hf1 s (List.mem_cons_of_mem _ hs))
        (fun s hs => hf2 s (List.mem_cons_of_mem _ hs)) hsplit.2
      rw [hsplit.1, ih]

theorem goJoin_inj (l1 l2 : List String) (h1 : l1 ≠ []) (h2 : l2 ≠ [])
    (hf1 : ∀ s ∈ l1, '|' ∉ s.data) (hf2 : ∀ s ∈ l2, '|' ∉ s.data)
    (h : goJoin "|" l1 = goJoin "|" l2) : l1 = l2 := by
  have hd : joinBar (l1.map String.data) = joinBar (l2.map String.data) := by
    rw [← goJoin_data, ← goJoin_data, h]
  have hmap := joinBar_inj (l1.map String.data) (l2.map String.data)
    (by simpa using h1) (by simpa using h2)
    (by intro s hs
        obtain ⟨t, ht, rfl⟩ := List.mem_map.mp hs
        exact hf1 t ht)
    (by intro s hs
        obtain ⟨t, ht, rfl⟩ := List.mem_map.mp hs
        exact hf2 t ht) hd
  exact List.map_injective_iff.mpr (fun a b hab => stringDataInj a b hab) hmap

theorem md5Hex_inj (a b : String) (h : md5Hex a = md5Hex b) : a = b := by
  have hd := congrArg String.data h
  simp only [md5Hex, String.data_append] at hd
  exact stringDataInj a b (List.append_cancel_left hd)

theorem sortStrings_ne_nil (a : String) (as : List String) : sortStrings (a :: as) ≠ [] := by
  intro he
  have hp := List.perm_insertionSort (fun a b : String => goStrLe a b = true) (a :: as)
  rw [show sortStrings (a :: as) = List.insertionSort (fun a b : String => goStrLe a b = true) (a :: as) from rfl] at he
  rw [he] at hp
  exact absurd hp.symm.eq_nil (by simp)

theorem mem_sortStrings {s : String} {l : List String} (h : s ∈ sortStrings l) : s ∈ l :=
  (List.perm_insertionSort (fun a b : String => goStrLe a b = true) l).mem_iff.mp h

theorem calcHash_perm (D D' : List String) (h : D.Perm D') :
    calculateDependencyHash D = calculateDependencyHash D' := by
  cases D with
  | nil =>
      have : D' = [] := h.symm.eq_nil
      rw [this]
  | cons a as =>
      cases D' with
      | nil => exact absurd h.eq_nil (by simp)
      | cons b bs =>
          have hs : sortStrings (a :: as) = sortStrings (b :: bs) :=
            List.eq_of_perm_of_sorted
              ((List.perm_insertionSort _ _).trans (h.trans (List.perm_insertionSort _ _).symm))
              (List.sorted_insertionSort _ _) (List.sorted_insertionSort _ _)
          show md5Hex (goJoin "|" (sortStrings (a :: as))) = md5Hex (goJoin "|" (sortStrings (b :: bs)))
          rw [hs]

theorem calcHash_ne (D D' : List String) (h : ¬ D.Perm D')
    (hf : ∀ s ∈ D, '|' ∉ s.data) (hf' : ∀ s ∈ D', '|' ∉ s.data) :
    calculateDependencyHash D ≠ calculateDependencyHash D' := by
  cases D with
  | nil =>
      cases D' with
      | nil => exact absurd (List.Perm.refl []) h
      | cons b bs =>
          intro he
          have hd := congrArg String.data he
          simp [calculateDependencyHash, md5Hex, String.data_append] at hd
  | cons a as =>
      cases D' with
      | nil =>
          intro he
          have hd := congrArg String.data he
          simp [calculateDependencyHash, md5Hex, String.data_append] at hd
      | cons b bs =>
          intro he
          have hj : goJoin "|" (sortStrings (a :: as)) = goJoin "|" (sortStrings (b :: bs)) :=
            md5Hex_inj _ _ he
          have hs := goJoin_inj _ _ (sortStrings_ne_nil a as) (sortStrings_ne_nil b bs)
            (fun s hs => hf s (mem_sortStrings hs))
            (fun s hs => hf' s (mem_sortStrings hs)) hj
          have hp1 : (a :: as).Perm (sortStrings (a :: as)) :=
            (List.perm_insertionSort (fun a b : String => goStrLe a b = true) (a :: as)).symm
          have hp2 : (sortStrings (b :: bs)).Perm (b :: bs) :=
            List.perm_insertionSort (fun a b : String => goStrLe a b = true) (b :: bs)
          rw [← hs] at hp2
          exact h (hp1.trans hp2)

theorem append_rpar_ne_empty (a : String) : ¬ (a ++ ")") = "" := by
  intro he
  have hd := congrArg String.data he
  rw [String.data_append, show ((")" : String).data = [')']) from rfl,
    show (("" : String).data = ([] : List Char)) from rfl] at hd
  have hl := congrArg List.length hd
  simp only [List.length_append, List.length_cons, List.length_nil] at hl
  omega

/-- C7 (counterexample): the "|" join is ambiguous. A record marked with the
single dependency "a|b" is judged up to date when queried with the different
dependency set ["a", "b"], because both sides hash the joined string "a|b". -/
theorem C7_counterexample :
    MarkGenerated [] "s" "o" "h1234567" "t" "c" ["a|b"] 0 =
      Except.ok [("s", ⟨"s", "o", "h1234567", "t", calculateDependencyHash ["a|b"], 0, "c"⟩)] ∧
    NeedsRegeneration
        [("s", ⟨"s", "o", "h1234567", "t", calculateDependencyHash ["a|b"], 0, "c"⟩)]
        "s" "h1234567" ["a", "b"] = Except.ok (false, "") ∧
    ¬ List.Perm ["a", "b"] ["a|b"] := by
  refine ⟨rfl, rfl, ?_⟩
  intro hp
  simpa using hp.length_eq

/-- C7 (amended): after MarkGenerated with source hash h and dependency
list D, NeedsRegeneration with hash h and any permutation of D reports
false; with a different source hash of length at least 8 (as is h) it
reports true with a non-empty reason; with a dependency list that is not a
permutation of D it reports true with the reason "dependencies changed",
provided no dependency name contains the join separator "|" (otherwise the
joined strings can collide, as the counterexample shows). -/
theorem C7_round_trip (gc : GenStore) (sp op h t c : String) (D : List String)
    (now : Int) (gc' : GenStore)
    (hmark : MarkGenerated gc sp op h t c D now = Except.ok gc') :
    (∀ D', List.Perm D' D → NeedsRegeneration gc' sp h D' = Except.ok (false, "")) ∧
    (∀ h', ¬ h' = h → 8 ≤ h.length → 8 ≤ h'.length →
      ∃ r, NeedsRegeneration gc' sp h' D = Except.ok (true, r) ∧ ¬ r = "") ∧
    (∀ D', ¬ List.Perm D' D → (∀ s ∈ D, '|' ∉ s.data) → (∀ s ∈ D', '|' ∉ s.data) →
      NeedsRegeneration gc' sp h D' = Except.ok (true, "dependencies changed")) := by
  by_cases hemp : sp = "" ∨ op = ""
  · simp [MarkGenerated, hemp] at hmark
  · simp only [MarkGenerated, if_neg hemp] at hmark
    have hgc' : gc' = setMap gc sp
        { sourcePath := sp, outputPath := op, sourceHash := h, templateHash := t,
          dependencyHash := calculateDependencyHash D, generatedAt := now, configHash := c } := by
      cases hmark
      rfl
    have hlook : lookupMap gc' sp = some
        { sourcePath := sp, outputPath := op, sourceHash := h, templateHash := t,
          dependencyHash := calculateDependencyHash D, generatedAt := now, configHash := c } := by
      rw [hgc']
      exact lookupMap_setMap_self gc sp _
    refine ⟨?_, ?_, ?_⟩
    · intro D' hperm
      have hhash : calculateDependencyHash D = calculateDependencyHash D' :=
        calcHash_perm D D' hperm.symm
      simp [NeedsRegeneration, hlook, hhash]
    · intro h' hne hlen hlen'
      have hs : goSlice8 h = some (String.mk (h.data.take 8)) := by
        simp [goSlice8, hlen]
      have hs' : goSlice8 h' = some (String.mk (h'.data.take 8)) := by
        simp [goSlice8, hlen']
      refine ⟨"source content changed (hash: " ++ String.mk (h.data.take 8) ++ " -> " ++
        String.mk (h'.data.take 8) ++ ")", ?_, ?_⟩
      · have hne' : ¬ h = h' := fun he => hne he.symm
        simp [NeedsRegeneration, hlook, hne', hs, hs']
      · exact append_rpar_ne_empty _
    · intro D' hperm hf hf'
      have hhash : ¬ calculateDependencyHash D = calculateDependencyHash D' :=
        calcHash_ne D D' (fun hp => hperm hp.symm) hf hf'
      simp [NeedsRegeneration, hlook, hhash]

/-- Witness for C7 at a concrete input: a record marked with dependencies
["a", "b"] is judged up to date for the permutation ["b", "a"]. -/
theorem C7_witness :
    NeedsRegeneration
        (setMap [] "s"
          { sourcePath := "s", outputPath := "o", sourceHash := "hash5678",
            templateHash := "t", dependencyHash := calculateDependencyHash ["a", "b"],
            generatedAt := 0, configHash := "c" })
        "s" "hash5678" ["b", "a"] = Except.ok (false, "") :=
  (C7_round_trip [] "s" "o" "hash5678" "t" "c" ["a", "b"] 0
    (setMap [] "s"
      { sourcePath := "s", outputPath := "o", sourceHash := "hash5678",
        templateHash := "t", dependencyHash := calculateDependencyHash ["a", "b"],
        generatedAt := 0, configHash := "c" }) rfl).1 ["b", "a"] (List.Perm.swap "a" "b" [])

/-- C10: when a generation record exists and its stored source hash differs
from the supplied current hash, the reason formatting slices both hashes to
their first 8 characters: if either hash is shorter than 8 characters the
call panics (modelled as Except.error), and with both of length at least 8
it returns true with a non-empty reason. -/
theorem C10_short_hash_panics (gc : GenStore) (sp curr : String) (D : List String)
    (entry : GenerationInfo) (hlook : lookupMap gc sp = some entry)
    (hne : ¬ entry.sourceHash = curr) :
    ((entry.sourceHash.length < 8 ∨ curr.length < 8) →
      NeedsRegeneration gc sp curr D = Except.error "panic: slice bounds out of range") ∧
    (8 ≤ entry.sourceHash.length → 8 ≤ curr.length →
      ∃ r, NeedsRegeneration gc sp curr D = Except.ok (true, r) ∧ ¬ r = "") := by
  constructor
  · intro hshort
    rcases hshort with hshort | hshort
    · have hs : goSlice8 entry.sourceHash = none := by
        simp [goSlice8]
        omega
      simp [NeedsRegeneration, hlook, hne, hs]
    · have hs' : goSlice8 curr = none := by
        simp [goSlice8]
        omega
      have hcase : ∀ o : Option String, (match o, (none : Option String) with
          | some a, some b =>
              Except.ok (true, "source content changed (hash: " ++ a ++ " -> " ++ b ++ ")")
          | _, _ => Except.error "panic: slice bounds out of range") =
            (Except.error "panic: slice bounds out of range" : Except String (Bool × String)) := by
        intro o
        cases o <;> rfl
      simp [NeedsRegeneration, hlook, hne, hs', hcase]
  · intro hlen hlen'
    have hs : goSlice8 entry.sourceHash = some (String.mk (entry.sourceHash.data.take 8)) := by
      simp [goSlice8, hlen]
    have hs' : goSlice8 curr = some (String.mk (curr.data.take 8)) := by
      simp [goSlice8, hlen']
    refine ⟨"source content changed (hash: " ++ String.mk (entry.sourceHash.data.take 8) ++
      " -> " ++ String.mk (curr.data.take 8) ++ ")", ?_, ?_⟩
    · simp [NeedsRegeneration, hlook, hne, hs, hs']
    · exact append_rpar_ne_empty _

def genEntryShort : GenerationInfo :=
  { sourcePath := "s", outputPath := "o", sourceHash := "ab", templateHash := "t",
    dependencyHash := "", generatedAt := 0, configHash := "c" }

/-- Witness for C10 at a concrete input: a stored hash of length 2 panics
when the current hash differs. -/
theorem C10_witness :
    NeedsRegeneration [("s", genEntryShort)] "s" "x" [] =
      Except.error "panic: slice bounds out of range" :=
  (C10_short_hash_panics [("s", genEntryShort)] "s" "x" [] genEntryShort rfl
    (by decide)).1 (by decide)

/-! ## Cache manager (from the cache manager source file) -/

/-- Combined state of the four cache layers held by the CacheManager. -/
structure CacheState where
  content : ContentStore
  parse : List (String × ParsedFile)
  deps : Graph
  generation : GenStore
deriving DecidableEq, Repr

/-- Mirrors models.RegenerationPlan; the Go maps are association lists. -/
structure RegenerationPlan where
  changedFiles : List String
  affectedFiles : List String
  regenerationMap : List (String × List String)
  reasons : List (String × String)
  priority : List (String × Int)
deriving DecidableEq, Repr

/-- Mirrors models.ChangeEvent; the timestamp is an integer. -/
structure ChangeEvent where
  filePath : String
  eventType : String
  timestamp : Int
  oldHash : String
  newHash : String
deriving DecidableEq, Repr

/-- Mirrors CacheManager.handleFileDelete. Note the order of operations,
taken from the code: the node is removed from the graph first, and the
dependents are read afterwards. -/
def handleFileDelete (cm : CacheState) (p : String) (plan : RegenerationPlan) :
    RegenerationPlan × CacheState :=
  let content' := eraseKey cm.content p
  let parse' := eraseKey cm.parse p
  let deps' := RemoveNode cm.deps p
  let gen' := eraseKey cm.generation p
  let dependents := GetDependents deps' p
  let plan' := { plan with
    affectedFiles := dependents,
    reasons := dependents.foldl (fun m d => setMap m d ("dependency deleted: " ++ p)) plan.reasons,
    priority := dependents.foldl (fun m d => setMap m d 3) plan.priority }
  (plan', { content := content', parse := parse', deps := deps', generation := gen' })

/-- Mirrors CacheManager.handleFileChange (the write/create helper). -/
def handleFileChangeWrite (fsys : FileSystem) (cm : CacheState) (p : String)
    (plan : RegenerationPlan) : Except String (RegenerationPlan × CacheState) :=
  match UpdateContent fsys cm.content p with
  | Except.error e => Except.error ("failed to update content cache: " ++ e)
  | Except.ok (_, changed, content') =>
      if changed then
        let parse' := eraseKey cm.parse p
        let affected := GetAffectedFiles cm.deps p
        let plan1 := { plan with
          affectedFiles := affected,
          reasons := affected.foldl (fun m f => setMap m f ("dependency changed: " ++ p)) plan.reasons,
          priority := affected.foldl (fun m f => setMap m f 1) plan.priority }
        let plan2 := { plan1 with
          affectedFiles := plan1.affectedFiles ++ [p],
          reasons := setMap plan1.reasons p "file content changed",
          priority := setMap plan1.priority p 2 }
        Except.ok (plan2, { cm with content := content', parse := parse' })
      else
        Except.ok (plan, { cm with content := content' })

/-- Mirrors CacheManager.HandleFileChange: build the fresh plan, then
dispatch on the event type. -/
def HandleFileChange (fsys : FileSystem) (cm : CacheState) (event : ChangeEvent) :
    Except String (RegenerationPlan × CacheState) :=
  let plan : RegenerationPlan :=
    { changedFiles := [event.filePath], affectedFiles := [],
      regenerationMap := [], reasons := [], priority := [] }
  if event.eventType = "delete" then
    Except.ok (handleFileDelete cm event.filePath plan)
  else if event.eventType = "write" ∨ event.eventType = "create" then
    handleFileChangeWrite fsys cm event.filePath plan
  else
    Except.error ("unknown event type: " ++ event.eventType)

theorem lookupMap_foldl_setConst {β : Type} (v : β) :
    ∀ (l : List String) (m : List (String × β)) (f : String),
    lookupMap (l.foldl (fun acc d => setMap acc d v) m) f =
      if f ∈ l then some v else lookupMap m f
  | [], m, f => by simp
  | d :: rest, m, f => by
      rw [List.foldl_cons, lookupMap_foldl_setConst v rest (setMap m d v) f]
      by_cases hr : f ∈ rest
      · simp [hr]
      · by_cases hd : f = d
        · subst hd
          simp [hr, lookupMap_setMap_self]
        · have : ¬ f ∈ d :: rest := by simp [hd, hr]
          simp only [if_neg hr, if_neg this]
          exact lookupMap_setMap_ne m d f v hd

def c1State : CacheState :=
  { content := [("user_repo/user_repo", ⟨"user_repo/user_repo", "h", 0, 1, true⟩)],
    parse := [("user_repo/user_repo",
      { path := "user_repo/user_repo", packageName := "user_repo", methods := [],
        relPath := "user_repo/user_repo", dependencies := none })],
    deps := UpdateNode [] "users/route" ["user_repo/user_repo"],
    generation := [("user_repo/user_repo",
      { sourcePath := "user_repo/user_repo", outputPath := "o", sourceHash := "h",
        templateHash := "t", dependencyHash := "", generatedAt := 0, configHash := "c" })] }

def c1Event : ChangeEvent :=
  { filePath := "user_repo/user_repo", eventType := "delete", timestamp := 0,
    oldHash := "", newHash := "" }

def c1Plan : RegenerationPlan :=
  (handleFileDelete c1State "user_repo/user_repo"
    { changedFiles := ["user_repo/user_repo"], affectedFiles := [], regenerationMap := [],
      reasons := [], priority := [] }).1

def c1StateAfter : CacheState :=
  (handleFileDelete c1State "user_repo/user_repo"
    { changedFiles := ["user_repo/user_repo"], affectedFiles := [], regenerationMap := [],
      reasons := [], priority := [] }).2

/-- C1 (code bug): deleting "user_repo/user_repo" while "users/route"
depends on it does purge all four layers, but the resulting plan's affected
set is empty instead of containing "users/route": handleFileDelete removes
the graph node before reading its dependents, so GetDependents always runs
on the already-purged graph and returns nothing. -/
theorem C1_delete_plan_misses_dependents :
    GetDependents c1State.deps "user_repo/user_repo" = ["users/route"] ∧
    HandleFileChange (fun _ => FsResult.notExist) c1State c1Event =
      Except.ok (c1Plan, c1StateAfter) ∧
    c1Plan.affectedFiles = [] ∧
    ¬ "users/route" ∈ c1Plan.affectedFiles ∧
    lookupMap c1StateAfter.content "user_repo/user_repo" = none ∧
    lookupMap c1StateAfter.parse "user_repo/user_repo" = none ∧
    ¬ hasNode c1StateAfter.deps "user_repo/user_repo" ∧
    lookupMap c1StateAfter.generation "user_repo/user_repo" = none := by
  refine ⟨by decide, rfl, by decide, by decide, by decide, by decide, by decide, by decide⟩


/-- The plan handleFileChange produces on a content change of p. -/
def writePlan (g : Graph) (p : String) : RegenerationPlan :=
  let affected := GetAffectedFiles g p
  { changedFiles := [p],
    affectedFiles := affected ++ [p],
    regenerationMap := [],
    reasons := setMap (affected.foldl (fun m f => setMap m f ("dependency changed: " ++ p)) [])
      p "file content changed",
    priority := setMap (affected.foldl (fun m f => setMap m f 1) []) p 2 }

/-- C2: a write or create event first refreshes the content tracker; if the
bytes are unchanged the plan's affected set is empty and only the content
store is touched; if the content changed, the parse entry of the file is
invalidated and the plan marks every file of GetAffectedFiles with reason
"dependency changed: p" at priority 1 and the file itself with reason
"file content changed" at priority 2, strictly above 1. -/
theorem C2_write_event_plan (fsys : FileSystem) (cm : CacheState) (ev : ChangeEvent)
    (hev : ev.eventType = "write" ∨ ev.eventType = "create") :
    (∀ e content', UpdateContent fsys cm.content ev.filePath = Except.ok (e, false, content') →
      HandleFileChange fsys cm ev = Except.ok
        ({ changedFiles := [ev.filePath], affectedFiles := [], regenerationMap := [],
           reasons := [], priority := [] },
         { cm with content := content' })) ∧
    (∀ e content', UpdateContent fsys cm.content ev.filePath = Except.ok (e, true, content') →
      HandleFileChange fsys cm ev = Except.ok
        (writePlan cm.deps ev.filePath,
         { cm with content := content', parse := eraseKey cm.parse ev.filePath }) ∧
      (writePlan cm.deps ev.filePath).affectedFiles =
        GetAffectedFiles cm.deps ev.filePath ++ [ev.filePath] ∧
      lookupMap (writePlan cm.deps ev.filePath).reasons ev.filePath =
        some "file content changed" ∧
      lookupMap (writePlan cm.deps ev.filePath).priority ev.filePath = some 2 ∧
      (∀ f, f ∈ GetAffectedFiles cm.deps ev.filePath → ¬ f = ev.filePath →
        lookupMap (writePlan cm.deps ev.filePath).reasons f =
          some ("dependency changed: " ++ ev.filePath) ∧
        lookupMap (writePlan cm.deps ev.filePath).priority f = some 1) ∧
      (1 : Int) < 2 ∧
      lookupMap (eraseKey cm.parse ev.filePath) ev.filePath = none) := by
  have hnd : ¬ ev.eventType = "delete" := by
    rcases hev with h | h <;> rw [h] <;> decide
  constructor
  · intro e content' hupd
    simp [HandleFileChange, hnd, hev, handleFileChangeWrite, hupd]
  · intro e content' hupd
    refine ⟨?_, rfl, ?_, ?_, ?_, by decide, ?_⟩
    · simp [HandleFileChange, hnd, hev, handleFileChangeWrite, hupd, writePlan]
    · exact lookupMap_setMap_self _ _ _
    · exact lookupMap_setMap_self _ _ _
    · intro f hf hfp
      constructor
      · show lookupMap (setMap _ ev.filePath "file content changed") f = _
        rw [lookupMap_setMap_ne _ _ _ _ hfp, lookupMap_foldl_setConst, if_pos hf]
      · show lookupMap (setMap _ ev.filePath (2 : Int)) f = _
        rw [lookupMap_setMap_ne _ _ _ _ hfp, lookupMap_foldl_setConst, if_pos hf]
    · exact lookupMap_eraseKey_self _ _

def c2Fs : FileSystem := fun _ => FsResult.file 1 2 "hh"

def c2State : CacheState :=
  { content := [],
    parse := [("a",
      { path := "a", packageName := "p", methods := [], relPath := "a",
        dependencies := none })],
    deps := exampleGraphA, generation := [] }

def c2Event : ChangeEvent :=
  { filePath := "a", eventType := "write", timestamp := 0, oldHash := "", newHash := "" }

/-- Witness for C2 at a concrete input: a write to an untracked file "a"
is a content change, so the plan covers the dependents of "a" plus "a"
itself with the elevated priority. -/
theorem C2_witness :
    HandleFileChange c2Fs c2State c2Event = Except.ok
      (writePlan c2State.deps "a",
       { c2State with
         content := [("a", ⟨"a", "hh", 2, 1, true⟩)],
         parse := eraseKey c2State.parse "a" }) ∧
    (writePlan c2State.deps "a").affectedFiles = GetAffectedFiles c2State.deps "a" ++ ["a"] ∧
    lookupMap (writePlan c2State.deps "a").reasons "a" = some "file content changed" ∧
    lookupMap (writePlan c2State.deps "a").priority "a" = some 2 ∧
    (∀ f, f ∈ GetAffectedFiles c2State.deps "a" → ¬ f = "a" →
      lookupMap (writePlan c2State.deps "a").reasons f = some ("dependency changed: " ++ "a") ∧
      lookupMap (writePlan c2State.deps "a").priority f = some 1) ∧
    (1 : Int) < 2 ∧
    lookupMap (eraseKey c2State.parse "a") "a" = none :=
  (C2_write_event_plan c2Fs c2State c2Event (Or.inl rfl)).2
    (some ⟨"a", "hh", 2, 1, true⟩) [("a", ⟨"a", "hh", 2, 1, true⟩)] rfl

/-! ## Route tree (from the route-tree model source) -/

/-- Mirrors models.RouteSegment. -/
structure RouteSegment where
  name : String
  apiName : String
  isParam : Bool
  paramName : String
deriving DecidableEq, Repr

/-- Mirrors models.RouteNode; the parent back-pointer is dropped (the
claims never read it) and the children map is an association list. -/
inductive RouteNode where
  | mk (segment : RouteSegment) (children : List (String × RouteNode))
       (fullPath folderPath : String) (depth : Nat) (methods : List String)
       (parsedFile : Option ParsedFile)

def RouteNode.children : RouteNode → List (String × RouteNode)
  | .mk _ c _ _ _ _ _ => c

def RouteNode.fullPath : RouteNode → String
  | .mk _ _ f _ _ _ _ => f

/-- Mirrors models.Route (the per-route generation fields, filled in later
by CalculateOutputPaths, are dropped). -/
structure Route where
  apiPath : String
  folderPath : String
  segments : List RouteSegment
  parameters : List String
  isLeaf : Bool
  methods : List String
deriving DecidableEq, Repr

/-- Mirrors models.RouteTree. -/
structure RouteTree where
  root : RouteNode
  routes : List Route

/-- Mirrors NewRouteTree. -/
def NewRouteTree : RouteTree :=
  { root := RouteNode.mk { name := "", apiName := "", isParam := false, paramName := "" }
      [] "" "" 0 [] none,
    routes := [] }

/-- Mirrors ParseSegment: a folder name ending in the underscore marker is
a parameter segment named after the folder without the marker. -/
def ParseSegment (folderName : String) : RouteSegment :=
  if folderName.data.getLast? = some '_' then
    { name := folderName, isParam := true,
      paramName := String.mk folderName.data.dropLast,
      apiName := ":" ++ String.mk folderName.data.dropLast }
  else
    { name := folderName, isParam := false, paramName := "", apiName := folderName }

/-- Splits a character list at a separator (mirrors strings.Split). -/
def splitChar (sep : Char) : List Char → List (List Char)
  | [] => [[]]
  | c :: rest =>
    match splitChar sep rest with
    | [] => [[]]
    | h :: t => if c = sep then [] :: h :: t else (c :: h) :: t

/-- The valid path parts of AddRoute: split on the path separator, drop
empty and dot parts. filepath.Clean is modelled as the identity, which it
is on the already-clean relative paths the generator produces. -/
def validParts (relPath : String) : List String :=
  ((splitChar '/' relPath.data).map String.mk).filter (fun p => !(decide (p = "" ∨ p = ".")))

/-- The walk of AddRoute along the valid parts: descend into (or create)
one child per part, then record the parsed file at the final node. Returns
the updated subtree, the final node's stored FullPath and its child
count. -/
def addRouteAux (parsed : ParsedFile) :
    RouteNode → List String → List RouteSegment → List String → RouteNode × String × Nat
  | RouteNode.mk seg ch fp fo d m _, [], _, _ =>
      (RouteNode.mk seg ch fp fo d (m ++ parsed.methods) (some parsed), fp, ch.length)
  | RouteNode.mk seg ch fp fo d m pf, part :: rest, apiParts, folderParts =>
      let segment := ParseSegment part
      let apiParts' := apiParts ++ [segment]
      let folderParts' := folderParts ++ [part]
      let child := match lookupMap ch part with
        | some c => c
        | none => RouteNode.mk segment []
            (goJoin "/" (apiParts'.map RouteSegment.apiName))
            (goJoin "/" folderParts') folderParts'.length [] none
      let r := addRouteAux parsed child rest apiParts' folderParts'
      (RouteNode.mk seg (setMap ch part r.1) fp fo d m pf, r.2)

/-- Mirrors RouteTree.AddRoute. -/
def AddRoute (rt : RouteTree) (parsed : ParsedFile) : RouteTree :=
  let parts := validParts parsed.relPath
  if parts = [] then rt
  else
    let r := addRouteAux parsed rt.root parts [] []
    let segs := parts.map ParseSegment
    let route : Route :=
      { apiPath := r.2.1,
        folderPath := parsed.relPath,
        segments := segs,
        parameters := (segs.filter (·.isParam)).map (·.paramName),
        isLeaf := r.2.2 = 0,
        methods := parsed.methods }
    { root := r.1, routes := rt.routes ++ [route] }

def routeFile (relPath : String) : ParsedFile :=
  { path := relPath ++ "/route.go", packageName := "x", methods := [],
    relPath := relPath, dependencies := none }

/-- C8 (counterexample): the first recorded route for the relative path
"users" has APIPath "users", with no leading slash, not "/users". -/
theorem C8_counterexample :
    (AddRoute NewRouteTree (routeFile "users")).routes.map (·.apiPath) = ["users"] ∧
    ¬ ("users" : String) = "/users" := by
  exact ⟨by decide, by decide⟩

def c8Tree : RouteTree :=
  AddRoute (AddRoute (AddRoute NewRouteTree (routeFile "users"))
    (routeFile "users/id_")) (routeFile "profiles")

/-- C8 (amended): adding the route files at relative paths "users",
"users/id_", "profiles" in that order records exactly three routes, all
flagged as leaves, with API paths "users", "users/:id", "profiles" (the
code produces no leading slash) and parameter lists [], ["id"], []; in
general a segment whose folder name ends in the underscore marker is a
parameter whose name is the folder name without the marker and whose
API-facing name is ':' followed by that name, and a folder name without
the marker is a literal segment. -/
theorem C8_route_tree :
    c8Tree.routes.map (·.apiPath) = ["users", "users/:id", "profiles"] ∧
    c8Tree.routes.map (·.isLeaf) = [true, true, true] ∧
    c8Tree.routes.map (·.parameters) = [[], ["id"], []] ∧
    (∀ s : String, ∀ t : List Char, s.data = t ++ ['_'] →
      (ParseSegment s).isParam = true ∧
      (ParseSegment s).paramName = String.mk t ∧
      (ParseSegment s).apiName = ":" ++ String.mk t) ∧
    (∀ s : String, (¬ ∃ t : List Char, s.data = t ++ ['_']) →
      (ParseSegment s).isParam = false ∧ (ParseSegment s).apiName = s) := by
  refine ⟨by decide, by decide, by decide, ?_, ?_⟩
  · intro s t ht
    have hlast : s.data.getLast? = some '_' := by
      rw [ht]
      exact List.getLast?_concat _
    have hdrop : s.data.dropLast = t := by
      rw [ht]
      exact List.dropLast_concat
    simp [ParseSegment, hlast, hdrop]
  · intro s hne
    have hlast : ¬ s.data.getLast? = some '_' := by
      intro h
      obtain ⟨t, ht⟩ := List.getLast?_eq_some_iff.mp h
      exact hne ⟨t, ht⟩
    simp [ParseSegment, hlast]

/-- Witness for C8 at a concrete input: the folder name "id_" parses as
the parameter segment :id. -/
theorem C8_witness :
    (ParseSegment "id_").isParam = true ∧
    (ParseSegment "id_").paramName = String.mk ['i', 'd'] ∧
    (ParseSegment "id_").apiName = ":" ++ String.mk ['i', 'd'] :=
  C8_route_tree.2.2.2.1 "id_" ['i', 'd'] (by decide)

/-! ## Source analyzer (ParseRoute, from the parser source) -/

/-- One top-level declaration of a parsed Go file, as far as ParseRoute
inspects it: a function declaration carries its name and whether it has a
receiver; everything else is opaque. -/
inductive GoDecl where
  | funcDecl (name : String) (hasRecv : Bool)
  | otherDecl
deriving DecidableEq, Repr

/-- The abstract syntax ParseRoute reads off a successfully parsed file:
the package name (none when absent) and the declaration list. The Go
parser itself is modelled as an oracle `String → Option GoFile`; none
stands for a parse error. -/
structure GoFile where
  pkgName : Option String
  decls : List GoDecl
deriving DecidableEq, Repr

/-- ASCII whitespace, as trimmed by strings.TrimSpace. -/
def isGoSpace (c : Char) : Bool :=
  c = ' ' || c = '\t' || c = '\n' || c = '\r'

/-- Mirrors strings.TrimSpace. -/
def trimSpace (s : String) : String :=
  String.mk (((s.data.dropWhile isGoSpace).reverse.dropWhile isGoSpace).reverse)

/-- Whether the pattern is an initial run of the list. -/
def startsWithChars : List Char → List Char → Bool
  | _, [] => true
  | [], _ :: _ => false
  | c :: cs, p :: ps => if c = p then startsWithChars cs ps else false

/-- Mirrors strings.Contains at the character level. -/
def containsChars : List Char → List Char → Bool
  | s, pat =>
    if startsWithChars s pat then true
    else match s with
      | [] => false
      | _ :: rest => containsChars rest pat

/-- Uppercases one ASCII letter, mirroring strings.ToUpper per byte. -/
def toUpperChar (c : Char) : Char :=
  if 97 ≤ c.toNat ∧ c.toNat ≤ 122 then Char.ofNat (c.toNat - 32) else c

/-- Mirrors strings.ToUpper on ASCII strings. -/
def toUpperStr (s : String) : String := String.mk (s.data.map toUpperChar)

/-- The fixed HTTP verb set ParseRoute recognises. -/
def httpVerbs : List String := ["GET", "POST", "PUT", "DELETE", "PATCH", "OPTIONS", "HEAD"]

/-- The method-collection loop of ParseRoute: for each receiver-free
function declaration whose uppercased name is an HTTP verb, record the
uppercased name. -/
def routeMethods (decls : List GoDecl) : List String :=
  decls.foldl (fun acc d =>
    match d with
    | GoDecl.funcDecl name hasRecv =>
        if hasRecv then acc
        else if toUpperStr name ∈ httpVerbs then acc ++ [toUpperStr name] else acc
    | GoDecl.otherDecl => acc) []

/-- The empty ParsedFile that ParseRoute returns for empty, package-less
or unparsable content. -/
def emptyParsed (path relPath : String) : ParsedFile :=
  { path := path, packageName := "", methods := [], relPath := relPath,
    dependencies := none }

/-- Mirrors ParseRoute. The file read is an explicit parameter (the
outcome of os.ReadFile) and the Go parser is the oracle parameter. -/
def ParseRoute (readResult : Except String String) (goParse : String → Option GoFile)
    (path relPath : String) : Except String ParsedFile :=
  match readResult with
  | Except.error e => Except.error e
  | Except.ok src =>
      let srcStr := trimSpace src
      if srcStr = "" then Except.ok (emptyParsed path relPath)
      else if ¬ containsChars srcStr.data "package ".data then
        Except.ok (emptyParsed path relPath)
      else
        match goParse src with
        | none => Except.ok (emptyParsed path relPath)
        | some f =>
            Except.ok
              { path := path,
                packageName := match f.pkgName with | some n => n | none => "",
                methods := routeMethods f.decls,
                relPath := relPath, dependencies := none }

theorem routeMethodsAux_eq (decls : List GoDecl) :
    ∀ acc : List String,
    decls.foldl (fun acc d =>
      match d with
      | GoDecl.funcDecl name hasRecv =>
          if hasRecv then acc
          else if toUpperStr name ∈ httpVerbs then acc ++ [toUpperStr name] else acc
      | GoDecl.otherDecl => acc) acc =
    acc ++ decls.filterMap (fun d =>
      match d with
      | GoDecl.funcDecl name hasRecv =>
          if hasRecv = false ∧ toUpperStr name ∈ httpVerbs then some (toUpperStr name)
          else none
      | GoDecl.otherDecl => none) := by
  induction decls with
  | nil => intro acc; simp
  | cons d rest ih =>
      intro acc
      cases d with
      | otherDecl => simp [List.filterMap, ih]
      | funcDecl name hasRecv =>
          cases hasRecv with
          | true => simp [List.filterMap, ih]
          | false =>
              by_cases hv : toUpperStr name ∈ httpVerbs
              · simp [List.filterMap, hv, ih]
              · simp [List.filterMap, hv, ih]

/-- C9 (counterexample): a failing file read (absent file) is propagated
as an error by ParseRoute, while the claim requires an empty-methods
ParsedFile and no error for an absent file. -/
theorem C9_counterexample :
    ParseRoute (Except.error "open route.go: no such file or directory")
        (fun _ => none) "p" "r" =
      Except.error "open route.go: no such file or directory" := rfl

/-- C9 (amended): ParseRoute propagates a failing read as an error (absent
files are an error, not an empty result); given readable content it never
errors: blank content, content without a "package " marker, or content the
Go parser rejects yield the empty-methods ParsedFile, and parsable content
yields exactly the uppercased names of the receiver-free top-level
functions whose name case-insensitively matches one of GET, POST, PUT,
DELETE, PATCH, OPTIONS, HEAD, in declaration order. -/
theorem C9_parse_route (g : String → Option GoFile) (path relPath : String) :
    (∀ e, ParseRoute (Except.error e) g path relPath = Except.error e) ∧
    (∀ src, trimSpace src = "" →
      ParseRoute (Except.ok src) g path relPath = Except.ok (emptyParsed path relPath)) ∧
    (∀ src, ¬ trimSpace src = "" →
      containsChars (trimSpace src).data "package ".data = false →
      ParseRoute (Except.ok src) g path relPath = Except.ok (emptyParsed path relPath)) ∧
    (∀ src, ¬ trimSpace src = "" →
      containsChars (trimSpace src).data "package ".data = true → g src = none →
      ParseRoute (Except.ok src) g path relPath = Except.ok (emptyParsed path relPath)) ∧
    (∀ src f, ¬ trimSpace src = "" →
      containsChars (trimSpace src).data "package ".data = true → g src = some f →
      ParseRoute (Except.ok src) g path relPath = Except.ok
        { path := path,
          packageName := match f.pkgName with | some n => n | none => "",
          methods := routeMethods f.decls,
          relPath := relPath, dependencies := none }) ∧
    (∀ decls, routeMethods decls =
      decls.filterMap (fun d =>
        match d with
        | GoDecl.funcDecl name hasRecv =>
            if hasRecv = false ∧ toUpperStr name ∈ httpVerbs then some (toUpperStr name)
            else none
        | GoDecl.otherDecl => none)) := by
  refine ⟨fun e => rfl, ?_, ?_, ?_, ?_, ?_⟩
  · intro src hs
    simp [ParseRoute, hs]
  · intro src hs hc
    simp [ParseRoute, hs, hc]
  · intro src hs hc hg
    simp [ParseRoute, hs, hc, hg]
  · intro src f hs hc hg
    simp [ParseRoute, hs, hc, hg]
  · intro decls
    simpa using routeMethodsAux_eq decls []

def c9File : GoFile :=
  { pkgName := some "users",
    decls := [GoDecl.funcDecl "Get" false, GoDecl.funcDecl "helper" false,
      GoDecl.funcDecl "Post" true, GoDecl.otherDecl] }

def c9Parse : String → Option GoFile := fun _ => some c9File

/-- Witness for C9 at a concrete input: the file declaring a receiver-free
Get, a receiver-free helper and a Post method on a receiver records
exactly the method GET. -/
theorem C9_witness :
    ParseRoute (Except.ok "package users") c9Parse "p" "r" = Except.ok
      { path := "p", packageName := "users", methods := routeMethods c9File.decls,
        relPath := "r", dependencies := none } ∧
    routeMethods c9File.decls = ["GET"] :=
  ⟨((C9_parse_route c9Parse "p" "r").2.2.2.2.1 "package users" c9File
      (by decide) (by decide) rfl),
   by decide⟩
